import Mathlib

/-!
Verification of the dependency-tracking engine of the memorysafety repository
(memorysafety.cpp, class MemorySafety).

The engine is shallowly embedded: pointers to `Object` records are replaced by
the registry address (`Addr`) of the record, heap-allocated `Dependency`
records by entries of an allocation list keyed by an allocation id (`EId`)
that a counter (`nextId`) hands out, the intrusive per-source lookup tree by a
binary tree of allocation ids (`DTree`), and the intrusive doubly linked
per-target incoming lists by Lean lists of allocation ids (prepend models
`Dependency::link`, removing the id models `Dependency::unlink`).  Each loop
of the source that is not structurally recursive runs on explicit fuel and
returns `none` when the fuel runs out, so `∀ fuel, f fuel = none` states
nontermination of a loop; operations that would dereference a dangling
pointer (an id or address that is not allocated) also return `none`.
-/

namespace MemSafe

/-- An object address: the engine treats `const void*` as an opaque key. -/
abbrev Addr := Nat

/-- An allocation id standing for the heap address of one `Dependency`. -/
abbrev EId := Nat

/-- The payload of `MemorySafety::Dependency`: the dependent object `A`, the
object `B` that is depended on, and the kind flag `content`.  The intrusive
links (`parent`, `left`, `right`, `prev`, `next`) are represented by the
position of the record's id inside `Object.dependencies` and the incoming
lists instead. -/
structure Dependency where
  A : Addr
  B : Addr
  content : Bool
deriving Repr, DecidableEq

/-- The per-source lookup tree (`Dependency* dependencies` with its
`parent`, `left`, `right` links), as a binary tree of allocation ids. -/
inductive DTree where
  | leaf
  | node (left : DTree) (id : EId) (right : DTree)
deriving Repr, DecidableEq

/-- Does the id occur in the tree? -/
def DTree.memId (id : EId) : DTree → Bool
  | .leaf => false
  | .node l x r => x == id || l.memId id || r.memId id

/-- `MemorySafety::Object`: the outgoing-dependency tree, the two incoming
lists `incoming[2]` (index `false` = existence, `true` = content) and the
validity flag. -/
structure Object where
  dependencies : DTree := .leaf
  incoming0 : List EId := []
  incoming1 : List EId := []
  isValid : Bool := true
deriving Repr, DecidableEq

/-- `incoming[content]` of the source (array indexed by the kind bool). -/
def Object.incoming (o : Object) (content : Bool) : List EId :=
  if content then o.incoming1 else o.incoming0

/-- Store a new value into `incoming[content]`. -/
def Object.setIncoming (o : Object) (content : Bool) (l : List EId) : Object :=
  if content then { o with incoming1 := l } else { o with incoming0 := l }

/-- Find the first entry with the given key in an association list. -/
def lookupA {α : Type} : List (Nat × α) → Nat → Option α
  | [], _ => none
  | (k, v) :: rest, a => if k = a then some v else lookupA rest a

/-- Replace the value of the first entry with the given key (no change when
the key is absent). -/
def setA {α : Type} : List (Nat × α) → Nat → α → List (Nat × α)
  | [], _, _ => []
  | (k, v) :: rest, a, v' => if k = a then (k, v') :: rest else (k, v) :: setA rest a v'

/-- Drop every entry with the given key (an `unordered_map` holds one entry
per key, so this is `erase`). -/
def eraseKey {α : Type} : List (Nat × α) → Nat → List (Nat × α)
  | [], _ => []
  | (k, v) :: rest, a => if k = a then eraseKey rest a else (k, v) :: eraseKey rest a

/-- The state of the engine singleton `class MemorySafety`: the
`lookup` table from address to `Object`, the live heap of `Dependency`
records (`heap`, with `nextId` the allocator counter handing out fresh ids)
and the `initialized` flag. -/
structure MemorySafety where
  lookup : List (Addr × Object) := []
  heap : List (EId × Dependency) := []
  nextId : EId := 0
  initialized : Bool := true
deriving Repr, DecidableEq

/-- Dereference an object address. -/
def getObj (st : MemorySafety) (a : Addr) : Option Object :=
  lookupA st.lookup a

/-- Write through an object address (no change when the address is absent,
which corresponds to writing through a dangling `Object*`). -/
def setObj (st : MemorySafety) (a : Addr) (o : Object) : MemorySafety :=
  { st with lookup := setA st.lookup a o }

/-- Dereference a `Dependency*`. -/
def getDep (st : MemorySafety) (id : EId) : Option Dependency :=
  lookupA st.heap id

/-- Overwrite an allocated `Dependency` record. -/
def setDep (st : MemorySafety) (id : EId) (e : Dependency) : MemorySafety :=
  { st with heap := setA st.heap id e }

/-- `delete` a `Dependency` record. -/
def eraseDep (st : MemorySafety) (id : EId) : MemorySafety :=
  { st with heap := eraseKey st.heap id }

/-- `lookup[A]`: `operator[]` default-constructs a record for an absent key. -/
def ensureObj (st : MemorySafety) (a : Addr) : MemorySafety :=
  match getObj st a with
  | some _ => st
  | none => { st with lookup := (a, {}) :: st.lookup }

/-- `Dependency::link`: prepend the record to `B->incoming[content]`. -/
def Dependency.link (st : MemorySafety) (id : EId) : Option MemorySafety :=
  match getDep st id with
  | none => none
  | some e =>
    match getObj st e.B with
    | none => none
    | some ob => some (setObj st e.B (ob.setIncoming e.content (id :: ob.incoming e.content)))

/-- `Dependency::unlink`: remove the record from `B->incoming[content]`
(the doubly linked list makes this O(1) in the source; on the Lean list it
removes the id). -/
def Dependency.unlink (st : MemorySafety) (id : EId) : Option MemorySafety :=
  match getDep st id with
  | none => none
  | some e =>
    match getObj st e.B with
    | none => none
    | some ob =>
      some (setObj st e.B (ob.setIncoming e.content ((ob.incoming e.content).filter (fun x => x != id))))

/-- The pending loop of the invalidation cascade:
`inv x` is `x->invalidate()`, `invIncContent x co` the first `while` of
`x->invalidateIncoming(co)` (the content list), `invIncExist x` its second
`while` (the existence list, reached only when `co` is false), and `drop t`
the dependency-dropping loop at the end of `invalidate` running on the
detached tree `t`. -/
inductive InvCall where
  | inv (x : Addr)
  | invIncContent (x : Addr) (contentOnly : Bool)
  | invIncExist (x : Addr)
  | drop (t : DTree)

/-- One fueled interpreter for the mutually recursive loops of
`Object::invalidate` and `Object::invalidateIncoming`.  `none` means the
fuel ran out or a dangling pointer was dereferenced. -/
def invalStep : Nat → InvCall → MemorySafety → Option MemorySafety
  | 0, _, _ => none
  | Nat.succ f, c, st =>
    match c with
    | .invIncContent x co =>
      match getObj st x with
      | none => none
      | some o =>
        match o.incoming1 with
        | id :: _ =>
          match getDep st id with
          | none => none
          | some e => (invalStep f (.inv e.A) st).bind (invalStep f (.invIncContent x co))
        | [] => if co then some st else invalStep f (.invIncExist x) st
    | .invIncExist x =>
      match getObj st x with
      | none => none
      | some o =>
        match o.incoming0 with
        | id :: _ =>
          match getDep st id with
          | none => none
          | some e => (invalStep f (.inv e.A) st).bind (invalStep f (.invIncExist x))
        | [] => some st
    | .inv x =>
      match getObj st x with
      | none => none
      | some o =>
        (if o.isValid then
            invalStep f (.invIncContent x true) (setObj st x { o with isValid := false })
          else some st).bind fun st1 =>
          match getObj st1 x with
          | none => none
          | some o1 =>
            invalStep f (.drop o1.dependencies) (setObj st1 x { o1 with dependencies := .leaf })
    | .drop t =>
      match t with
      | .leaf => some st
      | .node l id r =>
        match l with
        | .node ll lid lr => invalStep f (.drop (.node ll lid (.node lr id r))) st
        | .leaf =>
          (Dependency.unlink st id).bind fun st1 => invalStep f (.drop r) (eraseDep st1 id)

/-- `Object::invalidate` on the object at address `x`. -/
def Object.invalidate (fuel : Nat) (st : MemorySafety) (x : Addr) : Option MemorySafety :=
  invalStep fuel (.inv x) st

/-- `Object::invalidateIncoming` on the object at address `x`. -/
def Object.invalidateIncoming (fuel : Nat) (st : MemorySafety) (x : Addr) (contentOnly : Bool) :
    Option MemorySafety :=
  invalStep fuel (.invIncContent x contentOnly) st

/-- Result of the lookup loop at the head of `Object::addDependency`: the
existing node with the wanted target, or the last node the loop variable
`parent` pointed at when `iter` became null. -/
inductive SearchRes where
  | found (id : EId)
  | notFound (parent : Option EId)
deriving Repr, DecidableEq

/-- The `while (iter)` lookup loop of `Object::addDependency`, fueled.  The
source's `<` and `>` branches have an empty body — they compare `target`
against `iter->B` but never descend into `iter->left` or `iter->right` — so
the transcription recurses with `iter` unchanged in both branches, exactly as
the source repeats the loop with an unchanged `iter`.  `iter` is the subtree
rooted at the current node.  The target field `B` of a `Dependency` is an
`Object*` in the source; its order is the order of the record addresses,
modeled here by the order on the registry addresses (only equality of
targets is ever observable, since the order merely picks one of the two
empty branches or the child slot of the dead insertion arm below). -/
def searchLoop : Nat → MemorySafety → Addr → DTree → Option EId → Option SearchRes
  | 0, _, _, _, _ => none
  | Nat.succ f, st, target, iter, parent =>
    match iter with
    | .leaf => some (.notFound parent)
    | .node l id r =>
      match getDep st id with
      | none => none
      | some e =>
        if target < e.B then searchLoop f st target (.node l id r) (some id)
        else if e.B < target then searchLoop f st target (.node l id r) (some id)
        else some (.found id)

/-- Give the node `p` a fresh child `d` on the side `left` (true = left),
transcribing `parent->left = d` / `parent->right = d` of the insertion arm
of `Object::addDependency`. -/
def DTree.setChild : DTree → EId → Bool → EId → DTree
  | .leaf, _, _, _ => .leaf
  | .node l id r, p, left, d =>
    if id = p then
      if left then .node (.node .leaf d .leaf) id r else .node l id (.node .leaf d .leaf)
    else .node (l.setChild p left d) id (r.setChild p left d)

/-- One step of the path from a node up to the root: the node is the left
(`lf`) or right (`rf`) child of the parent `pid` whose other subtree is
`sib`.  The list of frames, nearest parent first, stands for the chain of
`parent` pointers of the source. -/
inductive PFrame where
  | lf (pid : EId) (sib : DTree)
  | rf (pid : EId) (sib : DTree)
deriving Repr, DecidableEq

/-- Locate the node with the given id: the subtree rooted at it and its
frames (nearest parent first). -/
def findZip : DTree → EId → List PFrame → Option (DTree × List PFrame)
  | .leaf, _, _ => none
  | .node l id r, k, ctx =>
    if id = k then some (.node l id r, ctx)
    else
      match findZip l k (.lf id r :: ctx) with
      | some res => some res
      | none => findZip r k (.rf id l :: ctx)

/-- Reattach a subtree below its frames without rotating. -/
def rebuild : DTree → List PFrame → DTree
  | t, [] => t
  | t, .lf pid sib :: rest => rebuild (.node t pid sib) rest
  | t, .rf pid sib :: rest => rebuild (.node sib pid t) rest

/-- The `while (dep->parent)` loop of `Object::splay`, on the zipper: each
round performs the zig (one frame left), zig-zig or zig-zag rotations of the
source (`leftRotate`/`rightRotate` on the parent and grandparent) and
continues with the remaining frames.  The accessed node is never null in the
source, so the `leaf` line is dead; it reattaches without rotating. -/
def splayLoop : DTree → List PFrame → DTree
  | t, [] => t
  | .leaf, ctx => rebuild .leaf ctx
  | .node tl id tr, [.lf pid sib] => .node tl id (.node tr pid sib)
  | .node tl id tr, [.rf pid sib] => .node (.node sib pid tl) id tr
  | .node tl id tr, .lf pid ps :: .lf gid gs :: rest =>
    splayLoop (.node tl id (.node tr pid (.node ps gid gs))) rest
  | .node tl id tr, .rf pid ps :: .rf gid gs :: rest =>
    splayLoop (.node (.node (.node gs gid ps) pid tl) id tr) rest
  | .node tl id tr, .lf pid ps :: .rf gid gs :: rest =>
    splayLoop (.node (.node gs gid tl) id (.node tr pid ps)) rest
  | .node tl id tr, .rf pid ps :: .lf gid gs :: rest =>
    splayLoop (.node (.node ps pid tl) id (.node tr gid gs)) rest

/-- `Object::splay` on the object at address `a`: rotate the node with id
`k` to the root of the object's outgoing tree. -/
def Object.splay (st : MemorySafety) (a : Addr) (k : EId) : MemorySafety :=
  match getObj st a with
  | none => st
  | some o =>
    match findZip o.dependencies k [] with
    | none => st
    | some (sub, ctx) => setObj st a { o with dependencies := splayLoop sub ctx }

/-- `Object::addDependency(target, content)` on the object at address `a`:
run the (non-advancing) search loop on the outgoing tree, upgrade the kind
of an existing edge if needed, otherwise allocate a `Dependency`, hang it
below `parent`, link it into the target's incoming list, and splay. -/
def Object.addDependency (fuel : Nat) (st : MemorySafety) (a target : Addr) (content : Bool) :
    Option MemorySafety :=
  match getObj st a with
  | none => none
  | some o =>
    match searchLoop fuel st target o.dependencies none with
    | none => none
    | some (.found id) =>
      match getDep st id with
      | none => none
      | some e =>
        if content && !e.content then
          (Dependency.unlink st id).bind fun st1 =>
            (Dependency.link (setDep st1 id { e with content := true }) id).map fun st2 =>
              Object.splay st2 a id
        else some (Object.splay st a id)
    | some (.notFound parent) =>
      let id := st.nextId
      let st1 : MemorySafety :=
        { st with heap := (id, { A := a, B := target, content := content }) :: st.heap,
                  nextId := id + 1 }
      let st2 : Option MemorySafety :=
        match parent with
        | none =>
          match getObj st1 a with
          | none => none
          | some o1 => some (setObj st1 a { o1 with dependencies := .node .leaf id .leaf })
        | some p =>
          match getDep st1 p with
          | none => none
          | some ep =>
            match getObj st1 a with
            | none => none
            | some o1 =>
              some (setObj st1 a { o1 with dependencies := o1.dependencies.setChild p (target < ep.B) id })
      st2.bind fun st3 => (Dependency.link st3 id).map fun st4 => Object.splay st4 a id

/-- `MemorySafety::validate`: a `const` method, it reads the registry and
returns the addresses passed to the violation handler (the handler is
observable output; the method performs no writes). -/
def MemorySafety.validate (st : MemorySafety) (A : Addr) : MemorySafety × List Addr :=
  (st,
    match getObj st A with
    | some o => if o.isValid then [] else [A]
    | none => [])

/-- `MemorySafety::addDependency(A, B)`: `lookup[A]` (creating a record if
absent), stop if `A` is invalid, `lookup[B]`, then add an existence edge. -/
def MemorySafety.addDependency (fuel : Nat) (st : MemorySafety) (A B : Addr) :
    Option MemorySafety :=
  match getObj (ensureObj st A) A with
  | none => none
  | some a =>
    if !a.isValid then some (ensureObj st A)
    else Object.addDependency fuel (ensureObj (ensureObj st A) B) A B false

/-- `MemorySafety::addContentDependency(A, B)`: like `addDependency`, but if
`B` is invalid the source `A` is invalidated at once and no edge is added. -/
def MemorySafety.addContentDependency (fuel : Nat) (st : MemorySafety) (A B : Addr) :
    Option MemorySafety :=
  match getObj (ensureObj st A) A with
  | none => none
  | some a =>
    if !a.isValid then some (ensureObj st A)
    else
      match getObj (ensureObj (ensureObj st A) B) B with
      | none => none
      | some b =>
        if !b.isValid then Object.invalidate fuel (ensureObj (ensureObj st A) B) A
        else Object.addDependency fuel (ensureObj (ensureObj st A) B) A B true

/-- `MemorySafety::markModified(B)`: when `B` is registered, run the
content-only invalidation cascade on its incoming lists; otherwise no-op. -/
def MemorySafety.markModified (fuel : Nat) (st : MemorySafety) (B : Addr) :
    Option MemorySafety :=
  match getObj st B with
  | none => some st
  | some _ => Object.invalidateIncoming fuel st B true

/-- `MemorySafety::markDestroyed(B)`: when `B` is registered, run the full
invalidation cascade on its incoming lists and erase `B` from the registry.
The source erases the `Object` record only; it does not drop the remaining
outgoing edges of `B` (cf. `Object::invalidate`), so their records stay on
the heap and in their targets' incoming lists. -/
def MemorySafety.markDestroyed (fuel : Nat) (st : MemorySafety) (B : Addr) :
    Option MemorySafety :=
  match getObj st B with
  | none => some st
  | some _ =>
    (Object.invalidateIncoming fuel st B false).map fun st1 =>
      { st1 with lookup := eraseKey st1.lookup B }

/-- The engine singleton right after its constructor ran (`lookup` empty,
`initialized` true). -/
def initialState : MemorySafety :=
  { lookup := [], heap := [], nextId := 0, initialized := true }

/-- Free function `memorysafety::validate`: gated by `isAvailable()`. -/
def validate (st : MemorySafety) (A : Addr) : MemorySafety × List Addr :=
  if st.initialized then st.validate A else (st, [])

/-- Free function `memorysafety::add_dependency`: gated by `isAvailable()`. -/
def add_dependency (fuel : Nat) (st : MemorySafety) (A B : Addr) : Option MemorySafety :=
  if st.initialized then st.addDependency fuel A B else some st

/-- Free function `memorysafety::add_content_dependency`. -/
def add_content_dependency (fuel : Nat) (st : MemorySafety) (A B : Addr) : Option MemorySafety :=
  if st.initialized then st.addContentDependency fuel A B else some st

/-- Free function `memorysafety::mark_modified`. -/
def mark_modified (fuel : Nat) (st : MemorySafety) (B : Addr) : Option MemorySafety :=
  if st.initialized then st.markModified fuel B else some st

/-- Free function `memorysafety::mark_destroyed`. -/
def mark_destroyed (fuel : Nat) (st : MemorySafety) (B : Addr) : Option MemorySafety :=
  if st.initialized then st.markDestroyed fuel B else some st

/-- One call of the public operation surface (the argument of a trace). -/
inductive EngineOp where
  | add (A B : Addr)
  | addContent (A B : Addr)
  | modify (B : Addr)
  | destroy (B : Addr)
  | check (A : Addr)
deriving Repr, DecidableEq

/-- Run one public operation (through the free-function layer). -/
def execOp (fuel : Nat) (st : MemorySafety) : EngineOp → Option MemorySafety
  | .add A B => add_dependency fuel st A B
  | .addContent A B => add_content_dependency fuel st A B
  | .modify B => mark_modified fuel st B
  | .destroy B => mark_destroyed fuel st B
  | .check A => some (validate st A).1

/-- Run a call sequence, each call with the given fuel. -/
def runTrace (fuel : Nat) : List EngineOp → MemorySafety → Option MemorySafety
  | [], st => some st
  | op :: rest, st => (execOp fuel st op).bind (runTrace fuel rest)

/-! ### Derived notions used by the statements and proofs -/

/-- What every step of the invalidation cascade preserves: heap records are
kept verbatim or freed (never altered), the set of registered addresses is
unchanged, validity flags only fall, outgoing trees and incoming lists only
lose ids, and the allocator counter is untouched. -/
structure Shrinks (st st' : MemorySafety) : Prop where
  dep_sub : ∀ id e, getDep st' id = some e → getDep st id = some e
  keys : ∀ y, (getObj st' y).isSome = (getObj st y).isSome
  valid_mono : ∀ y o o', getObj st y = some o → getObj st' y = some o' →
    o'.isValid = true → o.isValid = true
  tree_sub : ∀ y o o', getObj st y = some o → getObj st' y = some o' →
    ∀ id, o'.dependencies.memId id = true → o.dependencies.memId id = true
  inc_sub : ∀ y o o' k, getObj st y = some o → getObj st' y = some o' →
    ∀ id, id ∈ o'.incoming k → id ∈ o.incoming k
  next_eq : st'.nextId = st.nextId

/-- Does the predicate hold for every id of the tree? -/
def DTree.allIds (p : EId → Bool) : DTree → Bool
  | .leaf => true
  | .node l x r => p x && DTree.allIds p l && DTree.allIds p r

/-- Boolean check: every id in an object's outgoing tree refers to an
allocated `Dependency` whose source field `A` is that object.  This is the
source-side half of the invariant that every edge is threaded through its
source's tree. -/
def wfTreeB (st : MemorySafety) : Bool :=
  st.lookup.all fun p =>
    p.2.dependencies.allIds fun id =>
      match getDep st id with
      | some e => e.A == p.1
      | none => true

/-- Boolean check: every id on an object's incoming list of either kind
refers to an allocated `Dependency` whose target field `B` is that object
and whose kind matches the list.  This is the target-side half of the
threading invariant. -/
def wfListB (st : MemorySafety) : Bool :=
  st.lookup.all fun p =>
    ((p.2.incoming0.all fun id =>
        match getDep st id with
        | some e => e.B == p.1 && e.content == false
        | none => true) &&
      (p.2.incoming1.all fun id =>
        match getDep st id with
        | some e => e.B == p.1 && e.content == true
        | none => true))

/-- A single content edge from `x` to `y` in the heap. -/
def edgeC (st : MemorySafety) (x y : Addr) : Prop :=
  ∃ id e, getDep st id = some e ∧ e.A = x ∧ e.B = y ∧ e.content = true

/-- `x` transitively depends on the content of `y`: a nonempty chain of
content edges from `x` to `y`. -/
def ReachC (st : MemorySafety) : Addr → Addr → Prop :=
  Relation.TransGen (edgeC st)

/-- The object at `y` exists and is marked invalid. -/
def validFalse (st : MemorySafety) (y : Addr) : Prop :=
  ∃ o, getObj st y = some o ∧ o.isValid = false

/-- The record `id ↦ e` is linked on its target's incoming list of its
kind. -/
def inIncoming (st : MemorySafety) (id : EId) (e : Dependency) : Prop :=
  ∃ o, getObj st e.B = some o ∧ id ∈ o.incoming e.content

/-- Between `st` and `st'`, an edge either survives on its incoming list or
its source has been invalidated: nothing unlinks an edge without having
invalidated the edge's source. -/
def RID (st st' : MemorySafety) : Prop :=
  ∀ id e, getDep st id = some e → inIncoming st id e →
    (getDep st' id = some e ∧ inIncoming st' id e) ∨ validFalse st' e.A

/-- The address `B` is untouched by a cascade step: its record keeps its
validity flag and outgoing tree, and every heap record sourced at `B`
survives verbatim. -/
def PreservesB (B : Addr) (st st' : MemorySafety) : Prop :=
  (∀ o, getObj st B = some o → ∃ o', getObj st' B = some o' ∧
    o'.isValid = o.isValid ∧ o'.dependencies = o.dependencies) ∧
  (∀ id e, getDep st id = some e → e.A = B → getDep st' id = some e)

/-- Every allocated id is below the allocator counter. -/
def IdsBelow (st : MemorySafety) : Prop :=
  ∀ id, (getDep st id).isSome = true → id < st.nextId

/-- Kinds never downgrade between two states: a record that was content
(and still exists) is still content. -/
def KindMono (st st' : MemorySafety) : Prop :=
  ∀ id e e', getDep st id = some e → getDep st' id = some e' →
    e.content = true → e'.content = true

/-- Ids allocated between two states are at least the old counter (freed
ids are never reused because the counter only grows). -/
def NewIds (st st' : MemorySafety) : Prop :=
  ∀ id, getDep st id = none → (getDep st' id).isSome = true → st.nextId ≤ id

/-- The composable per-operation facts behind kind monotonicity: kinds only
upgrade, allocated ids stay below the counter, the counter only grows, and
freshly allocated ids are at least the old counter. -/
def KindStep (st st' : MemorySafety) : Prop :=
  KindMono st st' ∧ IdsBelow st' ∧ st.nextId ≤ st'.nextId ∧ NewIds st st'

/-- Side condition under which a pending cascade call stays away from the
address `B` (relative to the initial state `st0`): `invalidate` only runs on
objects that transitively content-depend on `B`, `invalidateIncoming` only
content-only on `B` itself or such an object, and the dropping loop only
frees edges not sourced at `B`. -/
def SafeC (st0 : MemorySafety) (B : Addr) : InvCall → MemorySafety → Prop
  | .inv x, _ => ReachC st0 x B
  | .invIncContent y co, _ => co = true ∧ (y = B ∨ ReachC st0 y B)
  | .invIncExist _, _ => False
  | .drop t, st => ∀ id e, t.memId id = true → getDep st id = some e → e.A ≠ B

/-- Side condition for the unlink-tracking induction: the dropping loop only
frees edges whose source is already invalid. -/
def DropSrcDead : InvCall → MemorySafety → Prop
  | .drop t, st => ∀ id e, t.memId id = true → getDep st id = some e → validFalse st e.A
  | _, _ => True

/-- The record of object 2 in `contentState12`. -/
def obj2c : Object :=
  { dependencies := .leaf, incoming0 := [], incoming1 := [0], isValid := true }

/-- The state reached by add-content-dependency(1, 2) on the fresh
registry: a single content edge with id 0 from 1 to 2. -/
def contentState12 : MemorySafety :=
  { lookup :=
      [(2, obj2c),
        (1, { dependencies := .node .leaf 0 .leaf, incoming0 := [], incoming1 := [],
              isValid := true })],
    heap := [(0, { A := 1, B := 2, content := true })],
    nextId := 1,
    initialized := true }

/-- The state after mark-modified(2) on `contentState12`: 1 is invalid and
the edge has been dropped. -/
def modifiedState12 : MemorySafety :=
  { lookup :=
      [(2, { dependencies := .leaf, incoming0 := [], incoming1 := [], isValid := true }),
        (1, { dependencies := .leaf, incoming0 := [], incoming1 := [],
              isValid := false })],
    heap := [],
    nextId := 1,
    initialized := true }

/-- A record that is marked invalid and carries nothing else. -/
def invObj : Object :=
  { dependencies := .leaf, incoming0 := [], incoming1 := [], isValid := false }

/-- A registry holding a single invalidated record for address 1 (reached
for instance by add-content-dependency(1,1); mark-modified(1)). -/
def invState1 : MemorySafety :=
  { lookup := [(1, invObj)], heap := [], nextId := 1, initialized := true }

/-- The state after mark-destroyed(2) on `depState12`: 1 is invalid, the
edge freed, and 2 erased. -/
def destroyedState12 : MemorySafety :=
  { lookup := [(1, invObj)], heap := [], nextId := 1, initialized := true }

/-- The state reached by add-dependency(1, 2) on the fresh registry: a
single existence edge with id 0 from 1 to 2, at the root of 1's outgoing
tree and on 2's existence incoming list. -/
def depState12 : MemorySafety :=
  { lookup :=
      [(2, { dependencies := .leaf, incoming0 := [0], incoming1 := [], isValid := true }),
        (1, { dependencies := .node .leaf 0 .leaf, incoming0 := [], incoming1 := [],
              isValid := true })],
    heap := [(0, { A := 1, B := 2, content := false })],
    nextId := 1,
    initialized := true }

/-! ### Association-list lemmas -/

theorem lookupA_setA_self {α : Type} (l : List (Nat × α)) (a : Nat) (v : α) :
    lookupA (setA l a v) a = (lookupA l a).map fun _ => v := by
  induction l with
  | nil => rfl
  | cons p rest ih =>
    obtain ⟨k, w⟩ := p
    by_cases h : k = a
    · subst h; simp [setA, lookupA]
    · simp [setA, lookupA, h, ih]

theorem lookupA_setA_ne {α : Type} (l : List (Nat × α)) (a : Nat) (v : α) (y : Nat)
    (h : y ≠ a) : lookupA (setA l a v) y = lookupA l y := by
  induction l with
  | nil => rfl
  | cons p rest ih =>
    obtain ⟨k, w⟩ := p
    simp only [setA]
    by_cases hk : k = a
    · subst hk
      have hky : ¬ k = y := fun hky => h (hky ▸ rfl)
      simp only [if_pos rfl, lookupA, if_neg hky]
    · rw [if_neg hk]
      simp only [lookupA]
      by_cases hky : k = y
      · rw [if_pos hky, if_pos hky]
      · rw [if_neg hky, if_neg hky, ih]

theorem lookupA_eraseKey_self {α : Type} (l : List (Nat × α)) (a : Nat) :
    lookupA (eraseKey l a) a = none := by
  induction l with
  | nil => rfl
  | cons p rest ih =>
    obtain ⟨k, w⟩ := p
    simp only [eraseKey]
    by_cases hk : k = a
    · rw [if_pos hk]; exact ih
    · rw [if_neg hk]
      simp only [lookupA, if_neg hk]
      exact ih

theorem lookupA_eraseKey_ne {α : Type} (l : List (Nat × α)) (a y : Nat) (h : y ≠ a) :
    lookupA (eraseKey l a) y = lookupA l y := by
  induction l with
  | nil => rfl
  | cons p rest ih =>
    obtain ⟨k, w⟩ := p
    simp only [eraseKey]
    by_cases hk : k = a
    · subst hk
      have hky : ¬ k = y := fun hky => h (hky ▸ rfl)
      simp only [if_pos rfl, lookupA, if_neg hky]
      exact ih
    · rw [if_neg hk]
      simp only [lookupA]
      by_cases hky : k = y
      · rw [if_pos hky, if_pos hky]
      · rw [if_neg hky, if_neg hky, ih]

/-! ### Small-step lemmas about the state accessors -/

theorem getObj_setObj_self (st : MemorySafety) (a : Addr) (o : Object) :
    getObj (setObj st a o) a = (getObj st a).map fun _ => o :=
  lookupA_setA_self _ _ _

theorem getObj_setObj_ne (st : MemorySafety) (a : Addr) (o : Object) (y : Addr) (h : y ≠ a) :
    getObj (setObj st a o) y = getObj st y :=
  lookupA_setA_ne _ _ _ _ h

@[simp] theorem getDep_setObj (st : MemorySafety) (a : Addr) (o : Object) (id : EId) :
    getDep (setObj st a o) id = getDep st id := rfl

@[simp] theorem getObj_setDep (st : MemorySafety) (id : EId) (e : Dependency) (y : Addr) :
    getObj (setDep st id e) y = getObj st y := rfl

@[simp] theorem getObj_eraseDep (st : MemorySafety) (id : EId) (y : Addr) :
    getObj (eraseDep st id) y = getObj st y := rfl

@[simp] theorem nextId_setObj (st : MemorySafety) (a : Addr) (o : Object) :
    (setObj st a o).nextId = st.nextId := rfl

@[simp] theorem nextId_setDep (st : MemorySafety) (id : EId) (e : Dependency) :
    (setDep st id e).nextId = st.nextId := rfl

@[simp] theorem nextId_eraseDep (st : MemorySafety) (id : EId) :
    (eraseDep st id).nextId = st.nextId := rfl

theorem getDep_eraseDep_self (st : MemorySafety) (id : EId) :
    getDep (eraseDep st id) id = none :=
  lookupA_eraseKey_self _ _

theorem getDep_eraseDep_ne (st : MemorySafety) (id j : EId) (h : j ≠ id) :
    getDep (eraseDep st id) j = getDep st j :=
  lookupA_eraseKey_ne _ _ _ h

@[simp] theorem incoming_setIncoming_self (o : Object) (k : Bool) (l : List EId) :
    (o.setIncoming k l).incoming k = l := by
  cases k <;> simp [Object.setIncoming, Object.incoming]

theorem incoming_setIncoming_ne (o : Object) (k k' : Bool) (l : List EId) (h : k' ≠ k) :
    (o.setIncoming k l).incoming k' = o.incoming k' := by
  cases k <;> cases k' <;> simp_all [Object.setIncoming, Object.incoming]

@[simp] theorem isValid_setIncoming (o : Object) (k : Bool) (l : List EId) :
    (o.setIncoming k l).isValid = o.isValid := by
  cases k <;> simp [Object.setIncoming]

@[simp] theorem dependencies_setIncoming (o : Object) (k : Bool) (l : List EId) :
    (o.setIncoming k l).dependencies = o.dependencies := by
  cases k <;> simp [Object.setIncoming]

@[simp] theorem incoming_true (o : Object) : o.incoming true = o.incoming1 := rfl

@[simp] theorem incoming_false (o : Object) : o.incoming false = o.incoming0 := rfl

/-! ### The invalidation cascade only removes -/

theorem Shrinks.refl (st : MemorySafety) : Shrinks st st where
  dep_sub := fun _ _ h => h
  keys := fun _ => rfl
  valid_mono := fun _ o o' h h' hv => by rw [h] at h'; cases h'; exact hv
  tree_sub := fun _ o o' h h' id hm => by rw [h] at h'; cases h'; exact hm
  inc_sub := fun _ o o' _ h h' id hm => by rw [h] at h'; cases h'; exact hm
  next_eq := rfl

theorem Shrinks.mid {st2 st3 : MemorySafety} (g' : Shrinks st2 st3) {y : Addr} {o' : Object}
    (h' : getObj st3 y = some o') : ∃ om, getObj st2 y = some om := by
  have hs : (getObj st2 y).isSome = true := by
    rw [← g'.keys y, h']; rfl
  exact Option.isSome_iff_exists.mp hs

theorem Shrinks.trans {st1 st2 st3 : MemorySafety} (g : Shrinks st1 st2) (g' : Shrinks st2 st3) :
    Shrinks st1 st3 where
  dep_sub := fun id e h => g.dep_sub id e (g'.dep_sub id e h)
  keys := fun y => (g'.keys y).trans (g.keys y)
  valid_mono := fun y o o' h h' hv => by
    obtain ⟨om, hom⟩ := g'.mid h'
    exact g.valid_mono y o om h hom (g'.valid_mono y om o' hom h' hv)
  tree_sub := fun y o o' h h' id hm => by
    obtain ⟨om, hom⟩ := g'.mid h'
    exact g.tree_sub y o om h hom id (g'.tree_sub y om o' hom h' id hm)
  inc_sub := fun y o o' k h h' id hm => by
    obtain ⟨om, hom⟩ := g'.mid h'
    exact g.inc_sub y o om k h hom id (g'.inc_sub y om o' k hom h' id hm)
  next_eq := g'.next_eq.trans g.next_eq

theorem getObj_setObj_of_some {st : MemorySafety} {x : Addr} {o : Object} (o' : Object)
    (h : getObj st x = some o) : getObj (setObj st x o') x = some o' := by
  rw [getObj_setObj_self, h]; rfl

/-- Setting a field of a present object with unchanged incoming lists and
tree and a validity flag that does not rise is a shrink; this covers the
two `setObj` writes of `Object::invalidate`. -/
theorem shrinks_setObj {st : MemorySafety} {x : Addr} {o o' : Object}
    (h : getObj st x = some o)
    (hv : o'.isValid = true → o.isValid = true)
    (ht : ∀ id, o'.dependencies.memId id = true → o.dependencies.memId id = true)
    (hi : ∀ k id, id ∈ o'.incoming k → id ∈ o.incoming k) :
    Shrinks st (setObj st x o') where
  dep_sub := fun _ _ hd => hd
  keys := fun y => by
    by_cases hy : y = x
    · subst hy; rw [getObj_setObj_of_some o' h, h]; rfl
    · rw [getObj_setObj_ne st x o' y hy]
  valid_mono := fun y oy oy' hy hy' hvv => by
    by_cases hyx : y = x
    · subst hyx
      rw [getObj_setObj_of_some o' h] at hy'
      injection hy' with hy''
      rw [hy] at h
      injection h with h''
      subst hy''; subst h''
      exact hv hvv
    · rw [getObj_setObj_ne st x o' y hyx] at hy'
      rw [hy] at hy'
      injection hy' with hy''; subst hy''
      exact hvv
  tree_sub := fun y oy oy' hy hy' id hm => by
    by_cases hyx : y = x
    · subst hyx
      rw [getObj_setObj_of_some o' h] at hy'
      injection hy' with hy''
      rw [hy] at h
      injection h with h''
      subst hy''; subst h''
      exact ht id hm
    · rw [getObj_setObj_ne st x o' y hyx] at hy'
      rw [hy] at hy'
      injection hy' with hy''; subst hy''
      exact hm
  inc_sub := fun y oy oy' k hy hy' id hm => by
    by_cases hyx : y = x
    · subst hyx
      rw [getObj_setObj_of_some o' h] at hy'
      injection hy' with hy''
      rw [hy] at h
      injection h with h''
      subst hy''; subst h''
      exact hi k id hm
    · rw [getObj_setObj_ne st x o' y hyx] at hy'
      rw [hy] at hy'
      injection hy' with hy''; subst hy''
      exact hm
  next_eq := rfl

theorem shrinks_unlink {st st' : MemorySafety} {id : EId}
    (h : Dependency.unlink st id = some st') : Shrinks st st' := by
  unfold Dependency.unlink at h
  split at h
  · cases h
  · rename_i e he
    split at h
    · cases h
    · rename_i ob hb
      injection h with h'
      subst h'
      refine shrinks_setObj hb (fun hv => by simpa using hv) (fun i hm => by simpa using hm)
        (fun k i hm => ?_)
      by_cases hk : k = e.content
      · subst hk
        rw [incoming_setIncoming_self] at hm
        exact (List.mem_filter.mp hm).1
      · rwa [incoming_setIncoming_ne ob e.content k _ hk] at hm

theorem shrinks_eraseDep (st : MemorySafety) (id : EId) : Shrinks st (eraseDep st id) where
  dep_sub := fun j e h => by
    by_cases hj : j = id
    · subst hj; rw [getDep_eraseDep_self] at h; cases h
    · rwa [getDep_eraseDep_ne st id j hj] at h
  keys := fun _ => rfl
  valid_mono := fun y o o' h h' hv => by
    rw [getObj_eraseDep] at h'; rw [h] at h'; cases h'; exact hv
  tree_sub := fun y o o' h h' i hm => by
    rw [getObj_eraseDep] at h'; rw [h] at h'; cases h'; exact hm
  inc_sub := fun y o o' k h h' i hm => by
    rw [getObj_eraseDep] at h'; rw [h] at h'; cases h'; exact hm
  next_eq := rfl

/-- Every completed run of the invalidation cascade is a shrink. -/
theorem invalStep_shrinks :
    ∀ (fuel : Nat) (c : InvCall) (st st' : MemorySafety),
      invalStep fuel c st = some st' → Shrinks st st' := by
  intro fuel
  induction fuel with
  | zero => intro c st st' h; cases h
  | succ f ih =>
    intro c st st' h
    cases c with
    | invIncContent x co =>
      simp only [invalStep] at h
      split at h
      · cases h
      · rename_i o hobj
        split at h
        · rename_i id tl hinc
          split at h
          · cases h
          · rename_i e hd
            rw [Option.bind_eq_some] at h
            obtain ⟨st1, h1, h2⟩ := h
            exact (ih _ _ _ h1).trans (ih _ _ _ h2)
        · rename_i hinc
          split at h
          · injection h with h'; subst h'; exact Shrinks.refl st
          · exact ih _ _ _ h
    | invIncExist x =>
      simp only [invalStep] at h
      split at h
      · cases h
      · rename_i o hobj
        split at h
        · rename_i id tl hinc
          split at h
          · cases h
          · rename_i e hd
            rw [Option.bind_eq_some] at h
            obtain ⟨st1, h1, h2⟩ := h
            exact (ih _ _ _ h1).trans (ih _ _ _ h2)
        · rename_i hinc
          injection h with h'; subst h'; exact Shrinks.refl st
    | inv x =>
      simp only [invalStep] at h
      split at h
      · cases h
      · rename_i o hobj
        rw [Option.bind_eq_some] at h
        obtain ⟨st1, h1, h2⟩ := h
        have S1 : Shrinks st st1 := by
          by_cases hv : o.isValid
          · rw [if_pos hv] at h1
            exact (shrinks_setObj hobj (fun hfalse => by simp at hfalse)
              (fun i hm => by simpa using hm) (fun k i hm => by simpa using hm)).trans
              (ih _ _ _ h1)
          · rw [if_neg hv] at h1; injection h1 with h1'; subst h1'; exact Shrinks.refl st
        split at h2
        · cases h2
        · rename_i o1 hobj1
          have S2 : Shrinks st1 st' :=
            (shrinks_setObj hobj1 (fun hv => by simpa using hv)
              (fun i hm => by simp [DTree.memId] at hm) (fun k i hm => by simpa using hm)).trans
              (ih _ _ _ h2)
          exact S1.trans S2
    | drop t =>
      simp only [invalStep] at h
      cases t with
      | leaf => injection h with h'; subst h'; exact Shrinks.refl st
      | node l id r =>
        cases l with
        | node ll lid lr => exact ih _ _ _ h
        | leaf =>
          rw [Option.bind_eq_some] at h
          obtain ⟨st1, h1, h2⟩ := h
          exact (shrinks_unlink h1).trans ((shrinks_eraseDep st1 id).trans (ih _ _ _ h2))

/-- `Dependency::unlink` touches only incoming lists: the validity flag and
the outgoing tree of every object are unchanged. -/
theorem unlink_fields {st st' : MemorySafety} {id : EId}
    (h : Dependency.unlink st id = some st') :
    ∀ y o, getObj st y = some o →
      ∃ o', getObj st' y = some o' ∧ o'.isValid = o.isValid ∧
        o'.dependencies = o.dependencies := by
  unfold Dependency.unlink at h
  split at h
  · cases h
  · rename_i e he
    split at h
    · cases h
    · rename_i ob hb
      injection h with h'
      subst h'
      intro y o hy
      by_cases hyx : y = e.B
      · subst hyx
        refine ⟨_, getObj_setObj_of_some _ hb, ?_, ?_⟩ <;>
          · rw [hy] at hb; injection hb with hb'; subst hb'; simp
      · exact ⟨o, by rw [getObj_setObj_ne _ _ _ _ hyx]; exact hy, rfl, rfl⟩

/-- The dependency-dropping loop of `Object::invalidate` touches only
incoming lists and the heap: every object keeps its validity flag and its
outgoing tree. -/
theorem invalStep_drop_fields :
    ∀ (fuel : Nat) (t : DTree) (st st' : MemorySafety),
      invalStep fuel (.drop t) st = some st' →
      ∀ y o, getObj st y = some o →
        ∃ o', getObj st' y = some o' ∧ o'.isValid = o.isValid ∧
          o'.dependencies = o.dependencies := by
  intro fuel
  induction fuel with
  | zero => intro t st st' h; cases h
  | succ f ih =>
    intro t st st' h
    simp only [invalStep] at h
    cases t with
    | leaf =>
      injection h with h'
      subst h'
      exact fun y o hy => ⟨o, hy, rfl, rfl⟩
    | node l id r =>
      cases l with
      | node ll lid lr => exact ih _ _ _ h
      | leaf =>
        rw [Option.bind_eq_some] at h
        obtain ⟨st1, h1, h2⟩ := h
        intro y o hy
        obtain ⟨o1, hy1, hv1, ht1⟩ := unlink_fields h1 y o hy
        have hy2 : getObj (eraseDep st1 id) y = some o1 := hy1
        obtain ⟨o2, hy3, hv2, ht2⟩ := ih _ _ _ h2 y o1 hy2
        exact ⟨o2, hy3, hv2.trans hv1, ht2.trans ht1⟩

/-- When the second loop of `invalidateIncoming` finishes, the existence
incoming list of its object is empty. -/
theorem invalStep_invIncExist_post :
    ∀ (fuel : Nat) (x : Addr) (st st' : MemorySafety),
      invalStep fuel (.invIncExist x) st = some st' →
      ∃ o', getObj st' x = some o' ∧ o'.incoming0 = [] := by
  intro fuel
  induction fuel with
  | zero => intro x st st' h; cases h
  | succ f ih =>
    intro x st st' h
    simp only [invalStep] at h
    split at h
    · cases h
    · rename_i o hobj
      split at h
      · rename_i id tl hinc
        split at h
        · cases h
        · rename_i e hd
          rw [Option.bind_eq_some] at h
          obtain ⟨st1, h1, h2⟩ := h
          exact ih _ _ _ h2
      · rename_i hinc
        injection h with h'
        subst h'
        exact ⟨o, hobj, hinc⟩

/-- When `invalidateIncoming` finishes, the content incoming list of its
object is empty, and for a full (not content-only) run the existence list
is empty as well. -/
theorem invalStep_invInc_post :
    ∀ (fuel : Nat) (x : Addr) (co : Bool) (st st' : MemorySafety),
      invalStep fuel (.invIncContent x co) st = some st' →
      ∃ o', getObj st' x = some o' ∧ o'.incoming1 = [] ∧
        (co = false → o'.incoming0 = []) := by
  intro fuel
  induction fuel with
  | zero => intro x co st st' h; cases h
  | succ f ih =>
    intro x co st st' h
    simp only [invalStep] at h
    split at h
    · cases h
    · rename_i o hobj
      split at h
      · rename_i id tl hinc
        split at h
        · cases h
        · rename_i e hd
          rw [Option.bind_eq_some] at h
          obtain ⟨st1, h1, h2⟩ := h
          exact ih _ _ _ _ h2
      · rename_i hinc
        split at h
        · rename_i hco
          injection h with h'
          subst h'
          exact ⟨o, hobj, hinc, fun hfalse => by rw [hco] at hfalse; cases hfalse⟩
        · rename_i hco
          obtain ⟨o', hobj', hinc0⟩ := invalStep_invIncExist_post _ _ _ _ h
          refine ⟨o', hobj', ?_, fun _ => hinc0⟩
          have S := invalStep_shrinks _ _ _ _ h
          rw [List.eq_nil_iff_forall_not_mem]
          intro i hi
          have hmem := S.inc_sub x o o' true hobj hobj' i (by simpa using hi)
          simp only [incoming_true] at hmem
          rw [hinc] at hmem
          simp at hmem

/-- `Object::invalidate` leaves its object invalid with an empty outgoing
tree; when the object was still valid, its content incoming list has been
drained as well. -/
theorem invalStep_inv_post :
    ∀ (fuel : Nat) (x : Addr) (st st' : MemorySafety),
      invalStep fuel (.inv x) st = some st' →
      ∃ o', getObj st' x = some o' ∧ o'.isValid = false ∧
        o'.dependencies = DTree.leaf ∧
        (∀ o, getObj st x = some o → o.isValid = true → o'.incoming1 = []) := by
  intro fuel
  cases fuel with
  | zero => intro x st st' h; cases h
  | succ f =>
    intro x st st' h
    simp only [invalStep] at h
    split at h
    · cases h
    · rename_i o hobj
      rw [Option.bind_eq_some] at h
      obtain ⟨st1, h1, h2⟩ := h
      split at h2
      · cases h2
      · rename_i o1 hobj1
        by_cases hv : o.isValid
        · rw [if_pos hv] at h1
          have hset : getObj (setObj st x { o with isValid := false }) x =
              some { o with isValid := false } := getObj_setObj_of_some _ hobj
          have hvalid1 : o1.isValid = false := by
            have S := invalStep_shrinks _ _ _ _ h1
            cases hov : o1.isValid with
            | false => rfl
            | true =>
              have := S.valid_mono x _ _ hset hobj1 hov
              simp at this
          obtain ⟨oi, hoi, hinc1⟩ := invalStep_invInc_post _ _ _ _ _ h1
          have hoi' : oi = o1 := by
            rw [hobj1] at hoi
            injection hoi with hoi2
            exact hoi2.symm
          have hinc1' : o1.incoming1 = [] := by rw [← hoi']; exact hinc1.1
          have hset2 : getObj (setObj st1 x { o1 with dependencies := DTree.leaf }) x =
              some { o1 with dependencies := DTree.leaf } := getObj_setObj_of_some _ hobj1
          obtain ⟨o', ho', hv', ht'⟩ := invalStep_drop_fields _ _ _ _ h2 x _ hset2
          refine ⟨o', ho', ?_, ?_, fun _ _ _ => ?_⟩
          · rw [hv']; exact hvalid1
          · exact ht'
          · have S2 := invalStep_shrinks _ _ _ _ h2
            rw [List.eq_nil_iff_forall_not_mem]
            intro i hi
            have := S2.inc_sub x _ _ true hset2 ho' i (by simpa using hi)
            simp only [incoming_true] at this
            rw [hinc1'] at this
            simp at this
        · rw [if_neg hv] at h1
          injection h1 with h1'
          subst h1'
          have hset2 : getObj (setObj st x { o1 with dependencies := DTree.leaf }) x =
              some { o1 with dependencies := DTree.leaf } := getObj_setObj_of_some _ hobj1
          obtain ⟨o', ho', hv', ht'⟩ := invalStep_drop_fields _ _ _ _ h2 x _ hset2
          refine ⟨o', ho', ?_, ht', fun ox hox hvx => ?_⟩
          · rw [hv']
            simp only []
            rw [hobj] at hobj1
            injection hobj1 with ho1'
            subst ho1'
            cases hov : o.isValid with
            | false => rfl
            | true => exact absurd hov hv
          · rw [hobj] at hox
            injection hox with hox'
            subst hox'
            exact absurd hvx hv

/-! ### Lemmas about the registry accessors of the edge-adding path -/

theorem ensureObj_present {st : MemorySafety} {a : Addr} {o : Object}
    (h : getObj st a = some o) : ensureObj st a = st := by
  unfold ensureObj
  rw [h]

theorem getObj_ensureObj_absent {st : MemorySafety} {a : Addr}
    (h : getObj st a = none) : getObj (ensureObj st a) a = some {} := by
  unfold ensureObj
  rw [h]
  simp [getObj, lookupA]

theorem getObj_ensureObj_ne {st : MemorySafety} {a : Addr} (y : Addr) (hy : y ≠ a) :
    getObj (ensureObj st a) y = getObj st y := by
  unfold ensureObj
  split
  · rfl
  · simp only [getObj, lookupA]
    rw [if_neg (fun hha => hy (hha.symm))]

theorem getDep_ensureObj (st : MemorySafety) (a : Addr) (id : EId) :
    getDep (ensureObj st a) id = getDep st id := by
  unfold ensureObj
  split <;> rfl

theorem nextId_ensureObj (st : MemorySafety) (a : Addr) :
    (ensureObj st a).nextId = st.nextId := by
  unfold ensureObj
  split <;> rfl

theorem keys_ensureObj_self (st : MemorySafety) (a : Addr) :
    (getObj (ensureObj st a) a).isSome = true := by
  cases h : getObj st a with
  | some o => rw [ensureObj_present h, h]; rfl
  | none => rw [getObj_ensureObj_absent h]; rfl

theorem keys_ensureObj_mono {st : MemorySafety} {y : Addr} (a : Addr)
    (h : (getObj st y).isSome = true) : (getObj (ensureObj st a) y).isSome = true := by
  by_cases hy : y = a
  · subst hy; exact keys_ensureObj_self st _
  · rwa [getObj_ensureObj_ne y hy]

theorem keys_setObj (st : MemorySafety) (a : Addr) (o : Object) (y : Addr) :
    (getObj (setObj st a o) y).isSome = (getObj st y).isSome := by
  by_cases hy : y = a
  · subst hy
    rw [getObj_setObj_self]
    cases getObj st y <;> rfl
  · rw [getObj_setObj_ne st a o y hy]

theorem keys_link {st st' : MemorySafety} {id : EId}
    (h : Dependency.link st id = some st') :
    ∀ y, (getObj st' y).isSome = (getObj st y).isSome := by
  unfold Dependency.link at h
  split at h
  · cases h
  · rename_i e he
    split at h
    · cases h
    · rename_i ob hb
      injection h with h'
      subst h'
      exact fun y => keys_setObj st e.B _ y

theorem keys_splay (st : MemorySafety) (a : Addr) (k : EId) (y : Addr) :
    (getObj (Object.splay st a k) y).isSome = (getObj st y).isSome := by
  unfold Object.splay
  split
  · rfl
  · rename_i o ho
    split
    · rfl
    · rename_i pr hz
      exact keys_setObj st a _ y

theorem nextId_splay (st : MemorySafety) (a : Addr) (k : EId) :
    (Object.splay st a k).nextId = st.nextId := by
  unfold Object.splay
  split
  · rfl
  · split
    · rfl
    · rfl

theorem getDep_splay (st : MemorySafety) (a : Addr) (k : EId) (id : EId) :
    getDep (Object.splay st a k) id = getDep st id := by
  unfold Object.splay
  split
  · rfl
  · split
    · rfl
    · rfl

/-- `Object::addDependency` never adds or removes a registry record. -/
theorem objAdd_keys {fuel : Nat} {st st' : MemorySafety} {a target : Addr} {content : Bool}
    (h : Object.addDependency fuel st a target content = some st') :
    ∀ y, (getObj st' y).isSome = (getObj st y).isSome := by
  unfold Object.addDependency at h
  split at h
  · cases h
  · rename_i o ho
    split at h
    · cases h
    · rename_i id hsr
      split at h
      · cases h
      · rename_i e hd
        split at h
        · rw [Option.bind_eq_some] at h
          obtain ⟨st1, h1, h2⟩ := h
          rw [Option.map_eq_some'] at h2
          obtain ⟨st2, h2a, h2b⟩ := h2
          subst h2b
          intro y
          rw [keys_splay]
          rw [keys_link h2a]
          have hkeys1 : ∀ z, (getObj st1 z).isSome = (getObj st z).isSome := by
            unfold Dependency.unlink at h1
            split at h1
            · cases h1
            · rename_i e0 he0
              split at h1
              · cases h1
              · rename_i ob hb
                injection h1 with h1'
                subst h1'
                exact fun z => keys_setObj st e0.B _ z
          exact hkeys1 y
        · injection h with h'
          subst h'
          intro y
          rw [keys_splay]
    · rename_i parent hsr
      rw [Option.bind_eq_some] at h
      obtain ⟨st3, h3, h4⟩ := h
      rw [Option.map_eq_some'] at h4
      obtain ⟨st4, h4a, h4b⟩ := h4
      subst h4b
      intro y
      rw [keys_splay, keys_link h4a]
      have hpush : ∀ z, (getObj { st with
          heap := (st.nextId, { A := a, B := target, content := content }) :: st.heap,
          nextId := st.nextId + 1 } z).isSome = (getObj st z).isSome := fun _ => rfl
      split at h3
      · split at h3
        · cases h3
        · rename_i o1 ho1
          injection h3 with h3'
          subst h3'
          rw [keys_setObj]
          exact hpush y
      · split at h3
        · cases h3
        · rename_i ep hep
          split at h3
          · cases h3
          · rename_i o1 ho1
            injection h3 with h3'
            subst h3'
            rw [keys_setObj]
            exact hpush y

/-- The search loop of `Object::addDependency` never terminates on a
nonempty tree whose root's target differs from the wanted target: the
source's comparison branches are empty, so `iter` never advances. -/
theorem searchLoop_stuck :
    ∀ (fuel : Nat) (st : MemorySafety) (target : Addr) (l : DTree) (id : EId) (r : DTree)
      (parent : Option EId) (e : Dependency),
      getDep st id = some e → e.B ≠ target →
      searchLoop fuel st target (DTree.node l id r) parent = none := by
  intro fuel
  induction fuel with
  | zero => intros; rfl
  | succ f ih =>
    intro st target l id r parent e hd hne
    simp only [searchLoop, hd]
    rcases Nat.lt_trichotomy target e.B with hlt | heq | hgt
    · rw [if_pos hlt]
      exact ih st target l id r (some id) e hd hne
    · exact absurd heq.symm hne
    · rw [if_neg (Nat.lt_asymm hgt), if_pos hgt]
      exact ih st target l id r (some id) e hd hne

/-- When the search loop cannot finish, neither can `Object::addDependency`. -/
theorem objAdd_stuck {fuel : Nat} {st : MemorySafety} {a target : Addr} {o : Object}
    {content : Bool} (ha : getObj st a = some o)
    (hsl : searchLoop fuel st target o.dependencies none = none) :
    Object.addDependency fuel st a target content = none := by
  simp only [Object.addDependency, ha, hsl]

/-! ### The claims -/

/-- C1: refuted.  The claim says every engine operation terminates, in
particular the outgoing-tree search of add-dependency(A,B) when A is valid
and its tree nonempty.  In the source the two comparison branches of the
search loop are empty (`iter` never descends), so on the state reached by
add-dependency(1,2) — where 1 is valid with a nonempty outgoing tree — the
call add-dependency(1,3) (and add-content-dependency(1,3)) spins forever:
for every fuel the loop fails to finish. -/
theorem addDependency_search_diverges :
    MemorySafety.addDependency 5 initialState 1 2 = some depState12 ∧
    (∃ o, getObj depState12 1 = some o ∧ o.isValid = true ∧ o.dependencies ≠ DTree.leaf) ∧
    (∀ fuel, MemorySafety.addDependency fuel depState12 1 3 = none) ∧
    (∀ fuel, MemorySafety.addContentDependency fuel depState12 1 3 = none) := by
  refine ⟨rfl, ⟨_, rfl, rfl, by decide⟩, fun fuel => ?_, fun fuel => ?_⟩
  · have he : MemorySafety.addDependency fuel depState12 1 3 =
        Object.addDependency fuel (ensureObj (ensureObj depState12 1) 3) 1 3 false := rfl
    rw [he]
    exact objAdd_stuck
      (o := { dependencies := .node .leaf 0 .leaf, incoming0 := [], incoming1 := [],
              isValid := true }) rfl
      (searchLoop_stuck fuel _ 3 _ 0 _ none { A := 1, B := 2, content := false } rfl
        (by decide))
  · have he : MemorySafety.addContentDependency fuel depState12 1 3 =
        Object.addDependency fuel (ensureObj (ensureObj depState12 1) 3) 1 3 true := rfl
    rw [he]
    exact objAdd_stuck
      (o := { dependencies := .node .leaf 0 .leaf, incoming0 := [], incoming1 := [],
              isValid := true }) rfl
      (searchLoop_stuck fuel _ 3 _ 0 _ none { A := 1, B := 2, content := false } rfl
        (by decide))

/-- C2: refuted.  After add-dependency(1,2); mark-destroyed(1), the record
for 1 is gone from the registry, yet the edge 1→2 is still allocated and
still linked on 2's existence incoming list: mark-destroyed released the
Object record but not the outgoing edges, contradicting the claim that they
are unlinked and freed.  A later mark-destroyed(2) then dereferences the
dangling source record and gets stuck for every fuel (the C++ would touch
freed memory). -/
theorem markDestroyed_leaks_outgoing :
    (runTrace 20 [EngineOp.add 1 2, EngineOp.destroy 1] initialState).map
        (fun s => (getObj s 1, getDep s 0, (getObj s 2).map (fun o => o.incoming0))) =
      some (none, some { A := 1, B := 2, content := false }, some [0]) ∧
    (∀ fuel, (runTrace 20 [EngineOp.add 1 2, EngineOp.destroy 1] initialState).bind
        (fun s => MemorySafety.markDestroyed fuel s 2) = none) := by
  refine ⟨rfl, fun fuel => ?_⟩
  cases fuel with
  | zero => rfl
  | succ f1 =>
    cases f1 with
    | zero => rfl
    | succ f2 =>
      cases f2 with
      | zero => rfl
      | succ f3 => rfl

/-- C4: confirmed.  `MemorySafety::validate(A)` hands the handler exactly
the address A precisely when a record for A exists with a false valid flag;
otherwise it reports nothing, and it never reports more than once. -/
theorem validate_reports_iff_invalid :
    ∀ (st : MemorySafety) (A : Addr),
      ((st.validate A).2 = [A] ↔ ∃ o, getObj st A = some o ∧ o.isValid = false) ∧
      ((st.validate A).2 = [] ∨ (st.validate A).2 = [A]) := by
  intro st A
  unfold MemorySafety.validate
  cases h : getObj st A with
  | none => simp
  | some o =>
    by_cases hv : o.isValid = true
    · simp [hv]
    · rw [Bool.not_eq_true] at hv
      simp [hv]

/-- C10: confirmed.  `MemorySafety::validate` is a `const` method: the
engine state after the call (both through the method and through the free
function) is the state before it; only the report to the handler escapes. -/
theorem validate_leaves_state_unchanged :
    ∀ (st : MemorySafety) (A : Addr), (st.validate A).1 = st ∧ (validate st A).1 = st := by
  intro st A
  refine ⟨rfl, ?_⟩
  unfold validate
  split <;> rfl

/-- C8: confirmed.  From a fresh registry, add-content-dependency(10,20);
add-content-dependency(30,10); mark-destroyed(20) leaves 30 invalid:
validate(30) reports 30 (and 20, now unregistered, reports nothing). -/
theorem destroy_cascades_through_content :
    (runTrace 20 [EngineOp.addContent 10 20, EngineOp.addContent 30 10, EngineOp.destroy 20]
        initialState).map
        (fun s => ((validate s 30).2, (validate s 20).2, (getObj s 30).map Object.isValid)) =
      some ([30], [], some false) := rfl

/-- C3, counterexample: mark-modified(1) on the fresh registry is a no-op
and creates no record for 1, refuting that a record is created on the first
mutation-notification mentioning an address (the source uses `find`, not
`operator[]`). -/
theorem markModified_unregistered_creates_no_record :
    MemorySafety.markModified 5 initialState 1 = some initialState ∧
    getObj initialState 1 = none ∧
    mark_modified 5 initialState 1 = some initialState := ⟨rfl, rfl, rfl⟩

/-- C6, counterexample: with a self content edge (add-content-dependency(1,1))
the cascade of mark-modified(1) reaches 1 itself, so 1 ends up invalid and
validate(1) reports a violation — refuting that B always stays valid and
that validate(B) right after mark-modified(B) never reports. -/
theorem markModified_self_cycle_invalidates :
    (runTrace 20 [EngineOp.addContent 1 1, EngineOp.modify 1] initialState).map
        (fun s => ((validate s 1).2, (getObj s 1).map Object.isValid)) =
      some ([1], some false) := rfl

/-- C9, counterexample: after add-dependency(1,2); mark-destroyed(2) the
record for 2 is gone, but the further call add-dependency(3,2) — naming the
destroyed 2 as an endpoint — creates a fresh record for 2 and links a new
edge 3→2 onto it: a state change involving 2, refuting the claim. -/
theorem destroyed_address_rejoins_graph :
    (runTrace 20 [EngineOp.add 1 2, EngineOp.destroy 2] initialState).map
        (fun s => getObj s 2) = some none ∧
    (runTrace 20 [EngineOp.add 1 2, EngineOp.destroy 2, EngineOp.add 3 2] initialState).map
        (fun s => ((getObj s 2).isSome, (getObj s 2).map (fun o => o.incoming0),
          getDep s 1)) =
      some (true, some [1], some { A := 3, B := 2, content := false }) := ⟨rfl, rfl⟩

/-- C9 amended: a completed mark-destroyed(B) leaves no record for B in the
registry, so a later edge call treats B like a never-registered address:
add-dependency(A,B) from a valid (or unregistered) source then does create
fresh state for B — a new default record. -/
theorem markDestroyed_removes_record :
    (∀ (fuel : Nat) (st st' : MemorySafety) (B : Addr),
      MemorySafety.markDestroyed fuel st B = some st' → getObj st' B = none) ∧
    (∀ (fuel : Nat) (st st' : MemorySafety) (A B : Addr),
      getObj st B = none →
      (∀ oA, getObj st A = some oA → oA.isValid = true) →
      MemorySafety.addDependency fuel st A B = some st' →
      (getObj st' B).isSome = true) := by
  constructor
  · intro fuel st st' B h
    unfold MemorySafety.markDestroyed at h
    split at h
    · rename_i hB
      injection h with h'
      subst h'
      exact hB
    · rename_i o hB
      rw [Option.map_eq_some'] at h
      obtain ⟨st1, h1, h2⟩ := h
      subst h2
      exact lookupA_eraseKey_self _ _
  · intro fuel st st' A B hB hA h
    unfold MemorySafety.addDependency at h
    split at h
    · cases h
    · rename_i a ha
      cases hav : a.isValid with
      | false =>
        exfalso
        cases hA0 : getObj st A with
        | some oA =>
          rw [ensureObj_present hA0, hA0] at ha
          injection ha with ha'
          rw [← ha'] at hav
          rw [hA oA hA0] at hav
          cases hav
        | none =>
          rw [getObj_ensureObj_absent hA0] at ha
          injection ha with ha'
          rw [← ha'] at hav
          cases hav
      | true =>
        have hcond : (!a.isValid) = false := by rw [hav]; rfl
        rw [hcond, if_neg Bool.false_ne_true] at h
        have hk := objAdd_keys h B
        rw [hk]
        exact keys_ensureObj_self _ _

/-- C3 amended: a record is created lazily on the first edge operation —
after add-dependency(A,B) or add-content-dependency(A,B) on a
never-registered A, records for both A and B exist — while
mark-modified(X) (which uses a pure lookup) on a never-registered X is a
no-op and creates no record. -/
theorem records_created_on_first_edge :
    (∀ (fuel : Nat) (st : MemorySafety) (X : Addr),
      getObj st X = none → MemorySafety.markModified fuel st X = some st) ∧
    (∀ (fuel : Nat) (st st' : MemorySafety) (A B : Addr),
      getObj st A = none →
      (MemorySafety.addDependency fuel st A B = some st' ∨
        MemorySafety.addContentDependency fuel st A B = some st') →
      (getObj st' A).isSome = true ∧ (getObj st' B).isSome = true) := by
  constructor
  · intro fuel st X hX
    unfold MemorySafety.markModified
    rw [hX]
  · intro fuel st st' A B hA h
    have haA : getObj (ensureObj st A) A = some {} := getObj_ensureObj_absent hA
    have hvalid : ({} : Object).isValid = true := rfl
    have hkA : (getObj (ensureObj (ensureObj st A) B) A).isSome = true :=
      keys_ensureObj_mono B (by rw [haA]; rfl)
    have hkB : (getObj (ensureObj (ensureObj st A) B) B).isSome = true :=
      keys_ensureObj_self _ _
    cases h with
    | inl h =>
      unfold MemorySafety.addDependency at h
      simp only [haA, Bool.not_true] at h
      rw [if_neg Bool.false_ne_true] at h
      constructor
      · rw [objAdd_keys h A]; exact hkA
      · rw [objAdd_keys h B]; exact hkB
    | inr h =>
      unfold MemorySafety.addContentDependency at h
      simp only [haA, Bool.not_true] at h
      rw [if_neg Bool.false_ne_true] at h
      split at h
      · cases h
      · rename_i b hb
        split at h
        · have S := invalStep_shrinks _ _ _ _ h
          constructor
          · rw [S.keys A]; exact hkA
          · rw [S.keys B]; exact hkB
        · constructor
          · rw [objAdd_keys h A]; exact hkA
          · rw [objAdd_keys h B]; exact hkB

/-- C5: confirmed.  An edge call whose source record exists and is invalid
returns with the state unchanged (for both kinds, nothing is created or
altered); for the content kind, when the target record exists and is
invalid (and the source is valid or unregistered), the call invalidates A —
its flag is cleared, its outgoing tree emptied, its content incoming list
drained — and allocates no edge: every heap record afterwards already
existed before. -/
theorem invalid_endpoints_guard :
    (∀ (fuel : Nat) (st : MemorySafety) (A B : Addr) (o : Object),
      getObj st A = some o → o.isValid = false →
      MemorySafety.addDependency fuel st A B = some st ∧
      MemorySafety.addContentDependency fuel st A B = some st) ∧
    (∀ (fuel : Nat) (st st' : MemorySafety) (A B : Addr) (oB : Object),
      getObj st B = some oB → oB.isValid = false →
      (∀ oA, getObj st A = some oA → oA.isValid = true) →
      MemorySafety.addContentDependency fuel st A B = some st' →
      ∃ o', getObj st' A = some o' ∧ o'.isValid = false ∧
        o'.dependencies = DTree.leaf ∧ o'.incoming1 = [] ∧
        (∀ id e, getDep st' id = some e → getDep st id = some e)) := by
  constructor
  · intro fuel st A B o ho hv
    have hcond : (!o.isValid) = true := by rw [hv]; rfl
    constructor
    · unfold MemorySafety.addDependency
      simp only [ensureObj_present ho, ho, hcond, if_true]
    · unfold MemorySafety.addContentDependency
      simp only [ensureObj_present ho, ho, hcond, if_true]
  · intro fuel st st' A B oB hB hBv hA h
    have hAB : A ≠ B := by
      intro hEq
      subst hEq
      rw [hA oB hB] at hBv
      cases hBv
    have hstB : getObj (ensureObj st A) B = some oB := by
      rw [getObj_ensureObj_ne B (fun hBA => hAB hBA.symm)]
      exact hB
    have hens2 : ensureObj (ensureObj st A) B = ensureObj st A := ensureObj_present hstB
    unfold MemorySafety.addContentDependency at h
    split at h
    · cases h
    · rename_i a ha
      have hav : a.isValid = true := by
        cases hA0 : getObj st A with
        | some oA =>
          rw [ensureObj_present hA0, hA0] at ha
          injection ha with ha'
          rw [← ha']
          exact hA oA hA0
        | none =>
          rw [getObj_ensureObj_absent hA0] at ha
          injection ha with ha'
          rw [← ha']
      have hcondA : (!a.isValid) = false := by rw [hav]; rfl
      rw [hcondA, if_neg Bool.false_ne_true] at h
      simp only [hens2, hstB] at h
      have hcondB : (!oB.isValid) = true := by rw [hBv]; rfl
      rw [hcondB, if_pos rfl] at h
      unfold Object.invalidate at h
      obtain ⟨o', ho', hv', ht', hincl⟩ := invalStep_inv_post _ _ _ _ h
      refine ⟨o', ho', hv', ht', hincl a ha hav, fun id e hde => ?_⟩
      have S := invalStep_shrinks _ _ _ _ h
      have := S.dep_sub id e hde
      rwa [getDep_ensureObj] at this

/-! ### Kind monotonicity (towards C7) -/

theorem getDep_unlink {st st' : MemorySafety} {i : EId}
    (h : Dependency.unlink st i = some st') : ∀ j, getDep st' j = getDep st j := by
  unfold Dependency.unlink at h
  split at h
  · cases h
  · split at h
    · cases h
    · injection h with h'
      subst h'
      intro j
      rfl

theorem nextId_unlink {st st' : MemorySafety} {i : EId}
    (h : Dependency.unlink st i = some st') : st'.nextId = st.nextId := by
  unfold Dependency.unlink at h
  split at h
  · cases h
  · split at h
    · cases h
    · injection h with h'
      subst h'
      rfl

theorem getDep_link {st st' : MemorySafety} {i : EId}
    (h : Dependency.link st i = some st') : ∀ j, getDep st' j = getDep st j := by
  unfold Dependency.link at h
  split at h
  · cases h
  · split at h
    · cases h
    · injection h with h'
      subst h'
      intro j
      rfl

theorem nextId_link {st st' : MemorySafety} {i : EId}
    (h : Dependency.link st i = some st') : st'.nextId = st.nextId := by
  unfold Dependency.link at h
  split at h
  · cases h
  · split at h
    · cases h
    · injection h with h'
      subst h'
      rfl

theorem getDep_setDep_self (st : MemorySafety) (i : EId) (e : Dependency) :
    getDep (setDep st i e) i = (getDep st i).map fun _ => e :=
  lookupA_setA_self _ _ _

theorem getDep_setDep_ne (st : MemorySafety) (i : EId) (e : Dependency) (j : EId)
    (h : j ≠ i) : getDep (setDep st i e) j = getDep st j :=
  lookupA_setA_ne _ _ _ _ h

theorem kindStep_of_heap_eq {st st' : MemorySafety}
    (hd : ∀ j, getDep st' j = getDep st j) (hn : st'.nextId = st.nextId)
    (hIB : IdsBelow st) : KindStep st st' := by
  refine ⟨?_, ?_, ?_, ?_⟩
  · intro id e e' he he' hc
    rw [hd] at he'
    rw [he] at he'
    injection he' with h''
    rw [← h'']
    exact hc
  · intro id hs
    rw [hd] at hs
    rw [hn]
    exact hIB id hs
  · rw [hn]
  · intro id hnone hsome
    rw [hd] at hsome
    rw [hnone] at hsome
    cases hsome

theorem kindStep_of_shrinks {st st' : MemorySafety} (S : Shrinks st st')
    (hIB : IdsBelow st) : KindStep st st' := by
  refine ⟨?_, ?_, ?_, ?_⟩
  · intro id e e' he he' hc
    have := S.dep_sub id e' he'
    rw [he] at this
    injection this with h''
    rw [← h'']
    exact hc
  · intro id hs
    obtain ⟨e', he'⟩ := Option.isSome_iff_exists.mp hs
    have := S.dep_sub id e' he'
    rw [S.next_eq]
    exact hIB id (by rw [this]; rfl)
  · rw [S.next_eq]
  · intro id hnone hsome
    obtain ⟨e', he'⟩ := Option.isSome_iff_exists.mp hsome
    have := S.dep_sub id e' he'
    rw [hnone] at this
    cases this

theorem kindStep_trans {st st1 st' : MemorySafety} (hIB : IdsBelow st)
    (g : KindStep st st1) (g' : KindStep st1 st') : KindStep st st' := by
  obtain ⟨K1, I1, M1, N1⟩ := g
  obtain ⟨K2, I2, M2, N2⟩ := g'
  refine ⟨?_, I2, le_trans M1 M2, ?_⟩
  · intro id e e' he he' hc
    cases h1 : getDep st1 id with
    | some e1 => exact K2 id e1 e' h1 he' (K1 id e e1 he h1 hc)
    | none =>
      exfalso
      have hge : st1.nextId ≤ id := N2 id h1 (by rw [he']; rfl)
      have hlt : id < st.nextId := hIB id (by rw [he]; rfl)
      exact absurd (lt_of_lt_of_le hlt (le_trans M1 hge)) (lt_irrefl id)
  · intro id hnone hsome
    cases h1 : getDep st1 id with
    | some e1 => exact N1 id hnone (by rw [h1]; rfl)
    | none => exact le_trans M1 (N2 id h1 hsome)

/-- `Object::addDependency` only upgrades kinds and allocates fresh ids. -/
theorem objAdd_kindStep {fuel : Nat} {st st' : MemorySafety} {a target : Addr}
    {content : Bool} (hIB : IdsBelow st)
    (h : Object.addDependency fuel st a target content = some st') : KindStep st st' := by
  unfold Object.addDependency at h
  split at h
  · cases h
  · rename_i o ho
    split at h
    · cases h
    · rename_i id0 hsr
      split at h
      · cases h
      · rename_i e0 hd0
        split at h
        · rename_i hup
          rw [Option.bind_eq_some] at h
          obtain ⟨st1, h1, h2⟩ := h
          rw [Option.map_eq_some'] at h2
          obtain ⟨st2, h2a, h2b⟩ := h2
          subst h2b
          have hd1 : ∀ j, getDep st1 j = getDep st j := getDep_unlink h1
          have hd2 : ∀ j, getDep st2 j =
              getDep (setDep st1 id0 { e0 with content := true }) j := getDep_link h2a
          have hdf : ∀ j, getDep (Object.splay st2 a id0) j = getDep st2 j :=
            fun j => getDep_splay st2 a id0 j
          have hnf : (Object.splay st2 a id0).nextId = st.nextId := by
            rw [nextId_splay, nextId_link h2a, nextId_setDep, nextId_unlink h1]
          refine ⟨?_, ?_, ?_, ?_⟩
          · intro j e e' he he' hc
            rw [hdf, hd2] at he'
            by_cases hj : j = id0
            · subst hj
              rw [getDep_setDep_self, hd1, hd0] at he'
              injection he' with h''
              rw [← h'']
            · rw [getDep_setDep_ne _ _ _ _ hj, hd1] at he'
              rw [he] at he'
              injection he' with h''
              rw [← h'']
              exact hc
          · intro j hs
            rw [hdf, hd2] at hs
            rw [hnf]
            by_cases hj : j = id0
            · subst hj
              exact hIB j (by rw [hd0]; rfl)
            · rw [getDep_setDep_ne _ _ _ _ hj, hd1] at hs
              exact hIB j hs
          · rw [hnf]
          · intro j hnone hsome
            rw [hdf, hd2] at hsome
            by_cases hj : j = id0
            · subst hj
              rw [hd0] at hnone
              cases hnone
            · rw [getDep_setDep_ne _ _ _ _ hj, hd1] at hsome
              rw [hnone] at hsome
              cases hsome
        · injection h with h'
          subst h'
          exact kindStep_of_heap_eq (fun j => getDep_splay st a id0 j)
            (nextId_splay st a id0) hIB
    · rename_i parent hsr
      rw [Option.bind_eq_some] at h
      obtain ⟨st3, h3, h4⟩ := h
      rw [Option.map_eq_some'] at h4
      obtain ⟨st4, h4a, h4b⟩ := h4
      subst h4b
      have hd3 : (∀ j, getDep st3 j =
          lookupA ((st.nextId, { A := a, B := target, content := content }) :: st.heap) j) ∧
          st3.nextId = st.nextId + 1 := by
        split at h3
        · split at h3
          · cases h3
          · injection h3 with h3'
            subst h3'
            exact ⟨fun j => rfl, rfl⟩
        · split at h3
          · cases h3
          · split at h3
            · cases h3
            · injection h3 with h3'
              subst h3'
              exact ⟨fun j => rfl, rfl⟩
      have hdf : ∀ j, getDep (Object.splay st4 a st.nextId) j =
          lookupA ((st.nextId, { A := a, B := target, content := content }) :: st.heap) j := by
        intro j
        rw [getDep_splay, getDep_link h4a, hd3.1 j]
      have hnf : (Object.splay st4 a st.nextId).nextId = st.nextId + 1 := by
        rw [nextId_splay, nextId_link h4a, hd3.2]
      refine ⟨?_, ?_, ?_, ?_⟩
      · intro j e e' he he' hc
        rw [hdf j] at he'
        simp only [lookupA] at he'
        by_cases hj : st.nextId = j
        · exfalso
          have hlt := hIB j (by rw [he]; rfl)
          rw [hj] at hlt
          exact absurd hlt (lt_irrefl j)
        · rw [if_neg hj] at he'
          rw [show lookupA st.heap j = some e from he] at he'
          injection he' with h''
          rw [← h'']
          exact hc
      · intro j hs
        rw [hdf j] at hs
        simp only [lookupA] at hs
        rw [hnf]
        by_cases hj : st.nextId = j
        · rw [← hj]
          exact Nat.lt_succ_self _
        · rw [if_neg hj] at hs
          exact Nat.lt_succ_of_lt (hIB j hs)
      · rw [hnf]
        exact Nat.le_succ _
      · intro j hnone hsome
        rw [hdf j] at hsome
        simp only [lookupA] at hsome
        by_cases hj : st.nextId = j
        · exact le_of_eq hj
        · rw [if_neg hj] at hsome
          rw [show lookupA st.heap j = (none : Option Dependency) from hnone] at hsome
          cases hsome

/-- Every public operation only upgrades kinds and allocates fresh ids. -/
theorem execOp_kindStep (fuel : Nat) (st st' : MemorySafety) (op : EngineOp)
    (hIB : IdsBelow st) (h : execOp fuel st op = some st') : KindStep st st' := by
  have hrefl : KindStep st st := kindStep_of_heap_eq (fun _ => rfl) rfl hIB
  cases op with
  | check A =>
    simp only [execOp] at h
    injection h with h'
    have hfst : (validate st A).1 = st := by
      unfold validate
      split <;> rfl
    rw [hfst] at h'
    subst h'
    exact hrefl
  | modify B =>
    simp only [execOp] at h
    unfold mark_modified at h
    split at h
    · unfold MemorySafety.markModified at h
      split at h
      · injection h with h'; subst h'; exact hrefl
      · exact kindStep_of_shrinks (invalStep_shrinks _ _ _ _ h) hIB
    · injection h with h'; subst h'; exact hrefl
  | destroy B =>
    simp only [execOp] at h
    unfold mark_destroyed at h
    split at h
    · unfold MemorySafety.markDestroyed at h
      split at h
      · injection h with h'; subst h'; exact hrefl
      · rw [Option.map_eq_some'] at h
        obtain ⟨st1, h1, h2⟩ := h
        subst h2
        have S := invalStep_shrinks _ _ _ _ h1
        have g1 : KindStep st st1 := kindStep_of_shrinks S hIB
        exact kindStep_trans hIB g1 (kindStep_of_heap_eq (fun _ => rfl) rfl g1.2.1)
    · injection h with h'; subst h'; exact hrefl
  | add A B =>
    simp only [execOp] at h
    unfold add_dependency at h
    split at h
    · unfold MemorySafety.addDependency at h
      split at h
      · cases h
      · split at h
        · injection h with h'
          subst h'
          exact kindStep_of_heap_eq (fun j => getDep_ensureObj st A j)
            (nextId_ensureObj st A) hIB
        · have hIB2 : IdsBelow (ensureObj (ensureObj st A) B) := by
            intro j hs
            rw [getDep_ensureObj, getDep_ensureObj] at hs
            rw [nextId_ensureObj, nextId_ensureObj]
            exact hIB j hs
          have g1 : KindStep st (ensureObj (ensureObj st A) B) :=
            kindStep_of_heap_eq
              (fun j => by rw [getDep_ensureObj, getDep_ensureObj])
              (by rw [nextId_ensureObj, nextId_ensureObj]) hIB
          exact kindStep_trans hIB g1 (objAdd_kindStep hIB2 h)
    · injection h with h'; subst h'; exact hrefl
  | addContent A B =>
    simp only [execOp] at h
    unfold add_content_dependency at h
    split at h
    · unfold MemorySafety.addContentDependency at h
      split at h
      · cases h
      · split at h
        · injection h with h'
          subst h'
          exact kindStep_of_heap_eq (fun j => getDep_ensureObj st A j)
            (nextId_ensureObj st A) hIB
        · have hIB2 : IdsBelow (ensureObj (ensureObj st A) B) := by
            intro j hs
            rw [getDep_ensureObj, getDep_ensureObj] at hs
            rw [nextId_ensureObj, nextId_ensureObj]
            exact hIB j hs
          have g1 : KindStep st (ensureObj (ensureObj st A) B) :=
            kindStep_of_heap_eq
              (fun j => by rw [getDep_ensureObj, getDep_ensureObj])
              (by rw [nextId_ensureObj, nextId_ensureObj]) hIB
          split at h
          · cases h
          · split at h
            · exact kindStep_trans hIB g1
                (kindStep_of_shrinks (invalStep_shrinks _ _ _ _ h) hIB2)
            · exact kindStep_trans hIB g1 (objAdd_kindStep hIB2 h)
    · injection h with h'; subst h'; exact hrefl

/-- Kind monotonicity lifted to whole call sequences. -/
theorem runTrace_kindStep :
    ∀ (ops : List EngineOp) (fuel : Nat) (st st' : MemorySafety),
      IdsBelow st → runTrace fuel ops st = some st' → KindStep st st' := by
  intro ops
  induction ops with
  | nil =>
    intro fuel st st' hIB h
    injection h with h'
    subst h'
    exact kindStep_of_heap_eq (fun _ => rfl) rfl hIB
  | cons op rest ih =>
    intro fuel st st' hIB h
    simp only [runTrace] at h
    rw [Option.bind_eq_some] at h
    obtain ⟨st1, h1, h2⟩ := h
    have g1 := execOp_kindStep fuel st st1 op hIB h1
    exact kindStep_trans hIB g1 (ih fuel st1 st' g1.2.1 h2)

/-- C7: confirmed.  R2 concretely: add-dependency(1,2) then
add-content-dependency(1,2) turns the single edge into a content edge,
moving it from 2's existence list to 2's content list, and a further
add-dependency(1,2) leaves it content.  In general, over any call sequence
from a state whose allocated ids are below the allocator counter (as in the
fresh registry), a dependency record that is content is never existence
again. -/
theorem content_kind_monotone :
    ((runTrace 10 [EngineOp.add 1 2, EngineOp.addContent 1 2] initialState).map
        (fun s => (getDep s 0, (getObj s 2).map (fun o => (o.incoming0, o.incoming1)))) =
      some (some { A := 1, B := 2, content := true }, some ([], [0]))) ∧
    ((runTrace 10 [EngineOp.add 1 2, EngineOp.addContent 1 2, EngineOp.add 1 2]
        initialState).map (fun s => getDep s 0) =
      some (some { A := 1, B := 2, content := true })) ∧
    (∀ (fuel : Nat) (ops : List EngineOp) (st st' : MemorySafety),
      IdsBelow st → runTrace fuel ops st = some st' →
      ∀ id e e', getDep st id = some e → getDep st' id = some e' →
        e.content = true → e'.content = true) := by
  refine ⟨rfl, rfl, fun fuel ops st st' hIB h => ?_⟩
  exact (runTrace_kindStep ops fuel st st' hIB h).1

/-! ### Well-formedness bridges and reachability (towards C6) -/

theorem lookupA_mem {α : Type} {l : List (Nat × α)} {k : Nat} {v : α}
    (h : lookupA l k = some v) : (k, v) ∈ l := by
  induction l with
  | nil => cases h
  | cons p rest ih =>
    obtain ⟨k', w⟩ := p
    simp only [lookupA] at h
    by_cases hk : k' = k
    · rw [if_pos hk] at h
      injection h with h'
      subst hk
      subst h'
      exact List.mem_cons_self _ _
    · rw [if_neg hk] at h
      exact List.mem_cons_of_mem _ (ih h)

theorem DTree.allIds_spec {p : EId → Bool} {t : DTree} (h : t.allIds p = true)
    {id : EId} (hm : t.memId id = true) : p id = true := by
  induction t with
  | leaf => cases hm
  | node l x r ihl ihr =>
    simp only [DTree.allIds, Bool.and_eq_true] at h
    simp only [DTree.memId, Bool.or_eq_true] at hm
    rcases hm with (hx | hl) | hr
    · have hxid : x = id := eq_of_beq hx
      rw [← hxid]
      exact h.1.1
    · exact ihl h.1.2 hl
    · exact ihr h.2 hr

theorem wfTree_spec {st : MemorySafety} (h : wfTreeB st = true) :
    ∀ y o id e, getObj st y = some o → o.dependencies.memId id = true →
      getDep st id = some e → e.A = y := by
  intro y o id e hy hm hde
  have hmem : (y, o) ∈ st.lookup := lookupA_mem hy
  rw [wfTreeB, List.all_eq_true] at h
  have htree := h (y, o) hmem
  have := DTree.allIds_spec htree hm
  simp only [hde] at this
  exact eq_of_beq this

theorem wfList_spec {st : MemorySafety} (h : wfListB st = true) :
    ∀ y o k id e, getObj st y = some o → id ∈ o.incoming k → getDep st id = some e →
      e.B = y ∧ e.content = k := by
  intro y o k id e hy hm hde
  have hmem : (y, o) ∈ st.lookup := lookupA_mem hy
  rw [wfListB, List.all_eq_true] at h
  have hands := h (y, o) hmem
  rw [Bool.and_eq_true] at hands
  cases k with
  | false =>
    have h0 := hands.1
    rw [List.all_eq_true] at h0
    have := h0 id hm
    simp only [hde, Bool.and_eq_true] at this
    exact ⟨eq_of_beq this.1, by
      have := this.2
      cases hc : e.content
      · rfl
      · rw [hc] at this; cases this⟩
  | true =>
    have h1 := hands.2
    rw [List.all_eq_true] at h1
    have := h1 id hm
    simp only [hde, Bool.and_eq_true] at this
    exact ⟨eq_of_beq this.1, by
      have := this.2
      cases hc : e.content
      · rw [hc] at this; cases this
      · rfl⟩

theorem no_source_of_all {st : MemorySafety} {x : Addr}
    (h : st.heap.all (fun p => p.2.A != x) = true) :
    ∀ id e, getDep st id = some e → e.A ≠ x := by
  intro id e hde
  have hmem : (id, e) ∈ st.heap := lookupA_mem hde
  rw [List.all_eq_true] at h
  have := h (id, e) hmem
  exact bne_iff_ne.mp this

theorem reachC_no_source {st : MemorySafety} {x : Addr}
    (h : ∀ id e, getDep st id = some e → e.A ≠ x) : ∀ y, ¬ ReachC st x y := by
  intro y hr
  obtain ⟨b, hb, -⟩ := (Relation.TransGen.head'_iff).mp hr
  obtain ⟨id, e, hde, hA, -, -⟩ := hb
  exact h id e hde hA

theorem preservesB_refl (B : Addr) (st : MemorySafety) : PreservesB B st st :=
  ⟨fun o h => ⟨o, h, rfl, rfl⟩, fun _ _ h _ => h⟩

theorem preservesB_trans {B : Addr} {st st1 st' : MemorySafety}
    (p : PreservesB B st st1) (q : PreservesB B st1 st') : PreservesB B st st' := by
  refine ⟨fun o h => ?_, fun id e h hA => q.2 id e (p.2 id e h hA) hA⟩
  obtain ⟨o1, h1, hv1, ht1⟩ := p.1 o h
  obtain ⟨o2, h2, hv2, ht2⟩ := q.1 o1 h1
  exact ⟨o2, h2, hv2.trans hv1, ht2.trans ht1⟩

theorem preservesB_setObj_ne {B x : Addr} (st : MemorySafety) (o' : Object)
    (hx : x ≠ B) : PreservesB B st (setObj st x o') := by
  refine ⟨fun o h => ?_, fun _ _ h _ => h⟩
  refine ⟨o, ?_, rfl, rfl⟩
  rw [getObj_setObj_ne st x o' B (fun hBx => hx hBx.symm)]
  exact h

theorem validFalse_mono {st st' : MemorySafety} (S : Shrinks st st') {y : Addr}
    (h : validFalse st y) : validFalse st' y := by
  obtain ⟨o, ho, hv⟩ := h
  have hs : (getObj st' y).isSome = true := by rw [S.keys y, ho]; rfl
  obtain ⟨o', ho'⟩ := Option.isSome_iff_exists.mp hs
  refine ⟨o', ho', ?_⟩
  cases hv' : o'.isValid
  · rfl
  · have := S.valid_mono y o o' ho ho' hv'
    rw [hv] at this
    cases this

theorem RID_refl (st : MemorySafety) : RID st st :=
  fun _ _ hde hin => Or.inl ⟨hde, hin⟩

theorem RID_trans {st st1 st' : MemorySafety} (r1 : RID st st1) (r2 : RID st1 st')
    (S2 : Shrinks st1 st') : RID st st' := by
  intro id e hde hin
  cases r1 id e hde hin with
  | inl hs => exact r2 id e hs.1 hs.2
  | inr hdead => exact Or.inr (validFalse_mono S2 hdead)

/-- A cascade run whose pending call is safe for `B` (relative to a
well-formed initial state `st0` with no content cycle through `B`) leaves
`B`'s record and `B`'s outgoing edges untouched. -/
theorem invalStep_preservesB (st0 : MemorySafety) (B : Addr)
    (hwT : wfTreeB st0 = true) (hwL : wfListB st0 = true)
    (hnr : ¬ ReachC st0 B B) :
    ∀ (fuel : Nat) (c : InvCall) (st st' : MemorySafety),
      Shrinks st0 st → SafeC st0 B c st → invalStep fuel c st = some st' →
      PreservesB B st st' := by
  intro fuel
  induction fuel with
  | zero => intro c st st' _ _ h; cases h
  | succ f ih =>
    intro c st st' Sh hsafe h
    cases c with
    | invIncContent y co =>
      obtain ⟨hco, hyB⟩ := hsafe
      simp only [invalStep] at h
      split at h
      · cases h
      · rename_i o hobj
        split at h
        · rename_i id tl hinc
          split at h
          · cases h
          · rename_i e hd
            rw [Option.bind_eq_some] at h
            obtain ⟨st1, h1, h2⟩ := h
            have hmemid : id ∈ o.incoming true := by
              simp only [incoming_true, hinc]
              exact List.mem_cons_self _ _
            obtain ⟨o0, ho0⟩ := Sh.mid hobj
            have hmem0 : id ∈ o0.incoming true := Sh.inc_sub y o0 o true ho0 hobj id hmemid
            have hd0 : getDep st0 id = some e := Sh.dep_sub id e hd
            obtain ⟨heB, heC⟩ := wfList_spec hwL y o0 true id e ho0 hmem0 hd0
            have hedge : edgeC st0 e.A y := ⟨id, e, hd0, rfl, heB, heC⟩
            have hreach : ReachC st0 e.A B := by
              cases hyB with
              | inl hyB => rw [hyB] at hedge; exact Relation.TransGen.single hedge
              | inr hyB => exact Relation.TransGen.trans (Relation.TransGen.single hedge) hyB
            have P1 := ih (.inv e.A) st st1 Sh hreach h1
            have Sh1 : Shrinks st0 st1 := Sh.trans (invalStep_shrinks _ _ _ _ h1)
            have P2 := ih (.invIncContent y co) st1 st' Sh1 ⟨hco, hyB⟩ h2
            exact preservesB_trans P1 P2
        · rename_i hinc
          rw [hco, if_pos rfl] at h
          injection h with h'
          subst h'
          exact preservesB_refl B st
    | invIncExist x => exact hsafe.elim
    | inv x =>
      have hxB : x ≠ B := fun hEq => hnr (hEq ▸ hsafe)
      simp only [invalStep] at h
      split at h
      · cases h
      · rename_i o hobj
        rw [Option.bind_eq_some] at h
        obtain ⟨st1, h1, h2⟩ := h
        have step1 : PreservesB B st st1 ∧ Shrinks st0 st1 := by
          by_cases hv : o.isValid
          · rw [if_pos hv] at h1
            have hps : PreservesB B st (setObj st x { o with isValid := false }) :=
              preservesB_setObj_ne st _ hxB
            have hshr : Shrinks st (setObj st x { o with isValid := false }) :=
              shrinks_setObj hobj (fun hfalse => by simp at hfalse)
                (fun i hm => by simpa using hm) (fun k i hm => by simpa using hm)
            have hSh' : Shrinks st0 (setObj st x { o with isValid := false }) :=
              Sh.trans hshr
            have P := ih (.invIncContent x true) _ st1 hSh' ⟨rfl, Or.inr hsafe⟩ h1
            exact ⟨preservesB_trans hps P, hSh'.trans (invalStep_shrinks _ _ _ _ h1)⟩
          · rw [if_neg hv] at h1
            injection h1 with h1'
            subst h1'
            exact ⟨preservesB_refl B st, Sh⟩
        obtain ⟨P1, Sh1⟩ := step1
        split at h2
        · cases h2
        · rename_i o1 hobj1
          have hps2 : PreservesB B st1 (setObj st1 x { o1 with dependencies := DTree.leaf }) :=
            preservesB_setObj_ne st1 _ hxB
          have hshr2 : Shrinks st1 (setObj st1 x { o1 with dependencies := DTree.leaf }) :=
            shrinks_setObj hobj1 (fun hvv => by simpa using hvv)
              (fun i hm => by simp [DTree.memId] at hm) (fun k i hm => by simpa using hm)
          have hSh2 : Shrinks st0 (setObj st1 x { o1 with dependencies := DTree.leaf }) :=
            Sh1.trans hshr2
          have hsafe2 : SafeC st0 B (.drop o1.dependencies)
              (setObj st1 x { o1 with dependencies := DTree.leaf }) := by
            intro id e hm hde
            obtain ⟨o0, ho0⟩ := Sh1.mid hobj1
            have hm0 : o0.dependencies.memId id = true :=
              Sh1.tree_sub x o0 o1 ho0 hobj1 id hm
            have hde1 : getDep st1 id = some e := hde
            have hde0 : getDep st0 id = some e := Sh1.dep_sub id e hde1
            have := wfTree_spec hwT x o0 id e ho0 hm0 hde0
            rw [this]
            exact fun hEq => hxB hEq
          have P3 := ih (.drop o1.dependencies) _ st' hSh2 hsafe2 h2
          exact preservesB_trans P1 (preservesB_trans hps2 P3)
    | drop t =>
      simp only [invalStep] at h
      cases t with
      | leaf =>
        injection h with h'
        subst h'
        exact preservesB_refl B st
      | node l id r =>
        cases l with
        | node ll lid lr =>
          refine ih _ st st' Sh ?_ h
          intro j e hm hde
          refine hsafe j e ?_ hde
          simp only [DTree.memId, Bool.or_eq_true] at hm ⊢
          tauto
        | leaf =>
          rw [Option.bind_eq_some] at h
          obtain ⟨st1, h1, h2⟩ := h
          have hA0 : ∀ e0, getDep st id = some e0 → e0.A ≠ B := by
            intro e0 hde0
            refine hsafe id e0 ?_ hde0
            simp [DTree.memId]
          have hp1 : PreservesB B st st1 := by
            unfold Dependency.unlink at h1
            split at h1
            · cases h1
            · rename_i e0 he0
              split at h1
              · cases h1
              · rename_i ob hb
                injection h1 with h1'
                subst h1'
                refine ⟨fun o ho => ?_, fun j e hj hA => hj⟩
                by_cases hyB : e0.B = B
                · subst hyB
                  rw [hb] at ho
                  injection ho with ho'
                  subst ho'
                  exact ⟨_, getObj_setObj_of_some _ hb, by simp, by simp⟩
                · refine ⟨o, ?_, rfl, rfl⟩
                  rw [getObj_setObj_ne st e0.B _ B (fun hBx => hyB hBx.symm)]
                  exact ho
          have hp2 : PreservesB B st1 (eraseDep st1 id) := by
            refine ⟨fun o ho => ⟨o, ho, rfl, rfl⟩, fun j e hj hA => ?_⟩
            by_cases hji : j = id
            · exfalso
              subst hji
              have hj0 : getDep st j = some e := by
                rw [← getDep_unlink h1 j]
                exact hj
              exact hA0 e hj0 hA
            · rw [getDep_eraseDep_ne st1 id j hji]
              exact hj
          have hsafe3 : SafeC st0 B (.drop r) (eraseDep st1 id) := by
            intro j e hm hde
            by_cases hji : j = id
            · subst hji
              rw [getDep_eraseDep_self] at hde
              cases hde
            · rw [getDep_eraseDep_ne st1 id j hji, getDep_unlink h1 j] at hde
              refine hsafe j e ?_ hde
              simp only [DTree.memId, Bool.or_eq_true]
              right
              exact hm
          have Sh3 : Shrinks st0 (eraseDep st1 id) :=
            (Sh.trans (shrinks_unlink h1)).trans (shrinks_eraseDep st1 id)
          have P3 := ih (.drop r) _ st' Sh3 hsafe3 h2
          exact preservesB_trans hp1 (preservesB_trans hp2 P3)

theorem RID_setObj_inc_eq {st : MemorySafety} {x : Addr} {o o' : Object}
    (ho : getObj st x = some o) (hinc : ∀ k, o'.incoming k = o.incoming k) :
    RID st (setObj st x o') := by
  intro id e hde hin
  left
  refine ⟨hde, ?_⟩
  obtain ⟨ob, hob, hmem⟩ := hin
  by_cases hBx : e.B = x
  · subst hBx
    rw [ho] at hob
    injection hob with hob'
    subst hob'
    refine ⟨o', getObj_setObj_of_some _ ho, ?_⟩
    rw [hinc]
    exact hmem
  · refine ⟨ob, ?_, hmem⟩
    rw [getObj_setObj_ne st x o' e.B hBx]
    exact hob

/-- A cascade run from a well-formed initial state never unlinks an edge
without leaving that edge's source invalid. -/
theorem invalStep_RID (st0 : MemorySafety) (hwT : wfTreeB st0 = true) :
    ∀ (fuel : Nat) (c : InvCall) (st st' : MemorySafety),
      Shrinks st0 st → DropSrcDead c st → invalStep fuel c st = some st' →
      RID st st' := by
  intro fuel
  induction fuel with
  | zero => intro c st st' _ _ h; cases h
  | succ f ih =>
    intro c st st' Sh hdrop h
    cases c with
    | invIncContent y co =>
      simp only [invalStep] at h
      split at h
      · cases h
      · rename_i o hobj
        split at h
        · rename_i id tl hinc
          split at h
          · cases h
          · rename_i e hd
            rw [Option.bind_eq_some] at h
            obtain ⟨st1, h1, h2⟩ := h
            have r1 := ih (.inv e.A) st st1 Sh trivial h1
            have Sh1 : Shrinks st0 st1 := Sh.trans (invalStep_shrinks _ _ _ _ h1)
            have r2 := ih (.invIncContent y co) st1 st' Sh1 trivial h2
            exact RID_trans r1 r2 (invalStep_shrinks _ _ _ _ h2)
        · rename_i hinc
          split at h
          · injection h with h'; subst h'; exact RID_refl st
          · have r2 := ih (.invIncExist y) st st' Sh trivial h
            exact r2
    | invIncExist x =>
      simp only [invalStep] at h
      split at h
      · cases h
      · rename_i o hobj
        split at h
        · rename_i id tl hinc
          split at h
          · cases h
          · rename_i e hd
            rw [Option.bind_eq_some] at h
            obtain ⟨st1, h1, h2⟩ := h
            have r1 := ih (.inv e.A) st st1 Sh trivial h1
            have Sh1 : Shrinks st0 st1 := Sh.trans (invalStep_shrinks _ _ _ _ h1)
            have r2 := ih (.invIncExist x) st1 st' Sh1 trivial h2
            exact RID_trans r1 r2 (invalStep_shrinks _ _ _ _ h2)
        · injection h with h'; subst h'; exact RID_refl st
    | inv x =>
      simp only [invalStep] at h
      split at h
      · cases h
      · rename_i o hobj
        rw [Option.bind_eq_some] at h
        obtain ⟨st1, h1, h2⟩ := h
        have step1 : RID st st1 ∧ Shrinks st0 st1 ∧
            (∃ o1, getObj st1 x = some o1 ∧ o1.isValid = false) := by
          by_cases hv : o.isValid
          · rw [if_pos hv] at h1
            have hset : getObj (setObj st x { o with isValid := false }) x =
                some { o with isValid := false } := getObj_setObj_of_some _ hobj
            have ra : RID st (setObj st x { o with isValid := false }) :=
              RID_setObj_inc_eq hobj (fun k => by cases k <;> rfl)
            have hshr : Shrinks st (setObj st x { o with isValid := false }) :=
              shrinks_setObj hobj (fun hfalse => by simp at hfalse)
                (fun i hm => by simpa using hm) (fun k i hm => by simpa using hm)
            have hSh' : Shrinks st0 (setObj st x { o with isValid := false }) :=
              Sh.trans hshr
            have rb := ih (.invIncContent x true) _ st1 hSh' trivial h1
            have S1 := invalStep_shrinks _ _ _ _ h1
            refine ⟨RID_trans ra rb S1, hSh'.trans S1, ?_⟩
            have hs1 : (getObj st1 x).isSome = true := by
              rw [S1.keys x, hset]
              rfl
            obtain ⟨o1, ho1⟩ := Option.isSome_iff_exists.mp hs1
            refine ⟨o1, ho1, ?_⟩
            cases hov : o1.isValid
            · rfl
            · have := S1.valid_mono x _ _ hset ho1 hov
              simp at this
          · rw [if_neg hv] at h1
            injection h1 with h1'
            subst h1'
            refine ⟨RID_refl st, Sh, o, hobj, ?_⟩
            cases hov : o.isValid
            · rfl
            · exact absurd hov hv
        obtain ⟨r1, Sh1, o1x, ho1x, hv1x⟩ := step1
        split at h2
        · cases h2
        · rename_i o1 hobj1
          have ho1eq : o1 = o1x := by
            rw [ho1x] at hobj1
            injection hobj1 with h''
            exact h''.symm
          have r2 : RID st1 (setObj st1 x { o1 with dependencies := DTree.leaf }) :=
            RID_setObj_inc_eq hobj1 (fun k => by cases k <;> rfl)
          have hshr2 : Shrinks st1 (setObj st1 x { o1 with dependencies := DTree.leaf }) :=
            shrinks_setObj hobj1 (fun hvv => by simpa using hvv)
              (fun i hm => by simp [DTree.memId] at hm) (fun k i hm => by simpa using hm)
          have hSh2 : Shrinks st0 (setObj st1 x { o1 with dependencies := DTree.leaf }) :=
            Sh1.trans hshr2
          have hdrop2 : DropSrcDead (.drop o1.dependencies)
              (setObj st1 x { o1 with dependencies := DTree.leaf }) := by
            intro id e hm hde
            obtain ⟨o0, ho0⟩ := Sh1.mid hobj1
            have hm0 : o0.dependencies.memId id = true :=
              Sh1.tree_sub x o0 o1 ho0 hobj1 id hm
            have hde1 : getDep st1 id = some e := hde
            have hde0 : getDep st0 id = some e := Sh1.dep_sub id e hde1
            have heA := wfTree_spec hwT x o0 id e ho0 hm0 hde0
            rw [heA]
            refine ⟨{ o1 with dependencies := DTree.leaf }, getObj_setObj_of_some _ hobj1, ?_⟩
            rw [ho1eq]
            simpa using hv1x
          have r3 := ih (.drop o1.dependencies) _ st' hSh2 hdrop2 h2
          have S2 := invalStep_shrinks _ _ _ _ h2
          exact RID_trans r1 (RID_trans r2 r3 S2) (hshr2.trans S2)
    | drop t =>
      simp only [invalStep] at h
      cases t with
      | leaf =>
        injection h with h'
        subst h'
        exact RID_refl st
      | node l id r =>
        cases l with
        | node ll lid lr =>
          refine ih _ st st' Sh ?_ h
          intro j e hm hde
          refine hdrop j e ?_ hde
          simp only [DTree.memId, Bool.or_eq_true] at hm ⊢
          tauto
        | leaf =>
          rw [Option.bind_eq_some] at h
          obtain ⟨st1, h1, h2⟩ := h
          have hmid : DTree.memId id (DTree.node DTree.leaf id r) = true := by
            simp [DTree.memId]
          have Scomb : Shrinks st (eraseDep st1 id) :=
            (shrinks_unlink h1).trans (shrinks_eraseDep st1 id)
          have rstep : RID st (eraseDep st1 id) := by
            intro j e hde hin
            by_cases hji : j = id
            · subst hji
              exact Or.inr (validFalse_mono Scomb (hdrop j e hmid hde))
            · left
              refine ⟨?_, ?_⟩
              · rw [getDep_eraseDep_ne st1 id j hji, getDep_unlink h1 j]
                exact hde
              · obtain ⟨obj, hobj, hmem⟩ := hin
                suffices hsuf : inIncoming st1 j e by
                  obtain ⟨ob2, hob2, hm2⟩ := hsuf
                  exact ⟨ob2, hob2, hm2⟩
                unfold Dependency.unlink at h1
                split at h1
                · cases h1
                · rename_i e0 he0
                  split at h1
                  · cases h1
                  · rename_i ob hb
                    injection h1 with h1'
                    subst h1'
                    by_cases hBB : e.B = e0.B
                    · have hobeq : obj = ob := by
                        rw [hBB] at hobj
                        rw [hobj] at hb
                        exact Option.some_inj.mp hb
                      subst hobeq
                      by_cases hcc : e.content = e0.content
                      · refine ⟨obj.setIncoming e0.content
                          ((obj.incoming e0.content).filter (fun z => z != id)), ?_, ?_⟩
                        · rw [hBB]
                          exact getObj_setObj_of_some _ hb
                        · rw [hcc, incoming_setIncoming_self]
                          rw [List.mem_filter]
                          refine ⟨by rw [← hcc]; exact hmem, ?_⟩
                          exact bne_iff_ne.mpr hji
                      · refine ⟨obj.setIncoming e0.content
                          ((obj.incoming e0.content).filter (fun z => z != id)), ?_, ?_⟩
                        · rw [hBB]
                          exact getObj_setObj_of_some _ hb
                        · rw [incoming_setIncoming_ne _ _ _ _ hcc]
                          exact hmem
                    · refine ⟨obj, ?_, hmem⟩
                      rw [getObj_setObj_ne st e0.B _ e.B hBB]
                      exact hobj
          have hdrop3 : DropSrcDead (.drop r) (eraseDep st1 id) := by
            intro j e hm hde
            by_cases hji : j = id
            · subst hji
              rw [getDep_eraseDep_self] at hde
              cases hde
            · rw [getDep_eraseDep_ne st1 id j hji, getDep_unlink h1 j] at hde
              refine validFalse_mono Scomb (hdrop j e ?_ hde)
              simp only [DTree.memId, Bool.or_eq_true]
              right
              exact hm
          have Sh3 : Shrinks st0 (eraseDep st1 id) := Sh.trans Scomb
          have r3 := ih (.drop r) _ st' Sh3 hdrop3 h2
          exact RID_trans rstep r3 (invalStep_shrinks _ _ _ _ h2)

/-- C6 amended: on a well-formed registry state (every edge threaded
through its source's tree and its target's matching incoming list), for a
registered valid address B that does not transitively depend on its own
content (no content cycle through B — forced by the counterexample of the
self content edge), a completed mark-modified(B) invalidates the source of
every edge on B's content-incoming list, leaves B valid with its outgoing
tree and outgoing edge records untouched, and a validate(B) right after it
reports nothing. -/
theorem markModified_content_only_cascade :
    ∀ (fuel : Nat) (st st' : MemorySafety) (B : Addr) (oB : Object),
      wfTreeB st = true → wfListB st = true →
      getObj st B = some oB → oB.isValid = true →
      ¬ ReachC st B B →
      MemorySafety.markModified fuel st B = some st' →
      (∀ id e, id ∈ oB.incoming1 → getDep st id = some e → validFalse st' e.A) ∧
      (∃ oB', getObj st' B = some oB' ∧ oB'.isValid = true ∧
        oB'.dependencies = oB.dependencies) ∧
      (∀ id e, getDep st id = some e → e.A = B → getDep st' id = some e) ∧
      (st'.validate B).2 = [] := by
  intro fuel st st' B oB hwT hwL hB hBv hnr h
  unfold MemorySafety.markModified at h
  split at h
  · rename_i hBn
    rw [hB] at hBn
    cases hBn
  · unfold Object.invalidateIncoming at h
    have P : PreservesB B st st' :=
      invalStep_preservesB st B hwT hwL hnr fuel (.invIncContent B true) st st'
        (Shrinks.refl st) ⟨rfl, Or.inl rfl⟩ h
    have R : RID st st' :=
      invalStep_RID st hwT fuel (.invIncContent B true) st st' (Shrinks.refl st) trivial h
    obtain ⟨oB', hoB', hv', ht'⟩ := P.1 oB hB
    have hv'' : oB'.isValid = true := by rw [hv']; exact hBv
    obtain ⟨oP, hoP, hP1, _⟩ := invalStep_invInc_post fuel B true st st' h
    refine ⟨?_, ⟨oB', hoB', hv'', ht'⟩, P.2, ?_⟩
    · intro id e hmem hde
      obtain ⟨heB, heC⟩ := wfList_spec hwL B oB true id e hB (by simpa using hmem) hde
      have hin : inIncoming st id e := by
        refine ⟨oB, ?_, ?_⟩
        · rw [heB]; exact hB
        · rw [heC]; simpa using hmem
      cases R id e hde hin with
      | inr hdead => exact hdead
      | inl hs =>
        exfalso
        obtain ⟨o2, ho2, hmem2⟩ := hs.2
        rw [heB] at ho2
        have ho2P : o2 = oP := by
          rw [hoP] at ho2
          exact (Option.some_inj.mp ho2).symm
        rw [heC] at hmem2
        rw [ho2P] at hmem2
        simp only [incoming_true] at hmem2
        rw [hP1] at hmem2
        cases hmem2
    · unfold MemorySafety.validate
      simp only [hoB', hv'', if_true]

/-- Witness for the amended C6 at a concrete input: the state after
add-content-dependency(1, 2), with B = 2, which is well formed, valid, and
not a source of any edge. -/
theorem markModified_content_only_cascade_witness :
    (wfTreeB contentState12 = true ∧ wfListB contentState12 = true ∧
      getObj contentState12 2 = some obj2c ∧ obj2c.isValid = true ∧
      ¬ ReachC contentState12 2 2 ∧
      MemorySafety.markModified 10 contentState12 2 = some modifiedState12) ∧
    ((∀ id e, id ∈ obj2c.incoming1 → getDep contentState12 id = some e →
        validFalse modifiedState12 e.A) ∧
      (∃ oB', getObj modifiedState12 2 = some oB' ∧ oB'.isValid = true ∧
        oB'.dependencies = obj2c.dependencies) ∧
      (∀ id e, getDep contentState12 id = some e → e.A = 2 →
        getDep modifiedState12 id = some e) ∧
      (modifiedState12.validate 2).2 = []) := by
  have hnr : ¬ ReachC contentState12 2 2 :=
    reachC_no_source (no_source_of_all (by decide)) 2
  exact ⟨⟨by decide, by decide, rfl, rfl, hnr, rfl⟩,
    markModified_content_only_cascade 10 contentState12 modifiedState12 2 obj2c
      (by decide) (by decide) rfl rfl hnr rfl⟩

/-- Bridge from the boolean id-bound check to `IdsBelow`. -/
theorem idsBelow_of_all {st : MemorySafety}
    (h : st.heap.all (fun p => p.1 < st.nextId) = true) : IdsBelow st := by
  intro id hs
  obtain ⟨e, he⟩ := Option.isSome_iff_exists.mp hs
  have hmem : (id, e) ∈ st.heap := lookupA_mem he
  rw [List.all_eq_true] at h
  have := h (id, e) hmem
  exact of_decide_eq_true this

/-- Witness for the amended C3: on the fresh registry, mark-modified(1)
creates nothing, while add-dependency(1, 2) creates records for 1 and 2. -/
theorem records_created_on_first_edge_witness :
    (MemorySafety.markModified 7 initialState 5 = some initialState) ∧
    ((getObj depState12 1).isSome = true ∧ (getObj depState12 2).isSome = true) :=
  ⟨records_created_on_first_edge.1 7 initialState 5 rfl,
    records_created_on_first_edge.2 5 initialState depState12 1 2 rfl (Or.inl rfl)⟩

/-- Witness for the amended C9: destroying 2 in `depState12` leaves no
record for 2, and a later add-dependency(3, 2) re-creates one. -/
theorem markDestroyed_removes_record_witness :
    getObj destroyedState12 2 = none ∧
    (getObj
      { lookup :=
          [(2, { dependencies := .leaf, incoming0 := [1], incoming1 := [], isValid := true }),
            (3, { dependencies := .node .leaf 1 .leaf, incoming0 := [], incoming1 := [], isValid := true }),
            (1, invObj)],
        heap := [(1, { A := 3, B := 2, content := false })],
        nextId := 2,
        initialized := true } 2).isSome = true :=
  ⟨markDestroyed_removes_record.1 10 depState12 destroyedState12 2 rfl,
    markDestroyed_removes_record.2 10 destroyedState12 _ 3 2 rfl
      (fun oA h => by cases h) rfl⟩

/-- Witness for C5: on a registry whose record for 1 is invalid, both edge
calls from source 1 are no-ops, and a content call targeting the invalid 1
from the fresh source 3 invalidates 3 without creating an edge. -/
theorem invalid_endpoints_guard_witness :
    (MemorySafety.addDependency 5 invState1 1 7 = some invState1 ∧
      MemorySafety.addContentDependency 5 invState1 1 7 = some invState1) ∧
    (∃ o', getObj
        { lookup := [(3, invObj), (1, invObj)], heap := [], nextId := 1,
          initialized := true } 3 = some o' ∧ o'.isValid = false ∧
        o'.dependencies = DTree.leaf ∧ o'.incoming1 = [] ∧
        (∀ id e, getDep
          { lookup := [(3, invObj), (1, invObj)], heap := [], nextId := 1,
            initialized := true } id = some e → getDep invState1 id = some e)) :=
  ⟨invalid_endpoints_guard.1 5 invState1 1 7 invObj rfl rfl,
    invalid_endpoints_guard.2 5 invState1 _ 3 1 invObj rfl rfl
      (fun oA h => by cases h) rfl⟩

/-- Witness for C7's trace part: in `contentState12` the single edge is
content, and running add-dependency(1, 2) over it leaves it content. -/
theorem content_kind_monotone_witness :
    runTrace 10 [EngineOp.add 1 2] contentState12 = some contentState12 ∧
    ({ A := 1, B := 2, content := true } : Dependency).content = true :=
  ⟨rfl,
    content_kind_monotone.2.2 10 [EngineOp.add 1 2] contentState12 contentState12
      (idsBelow_of_all (by decide)) rfl 0 { A := 1, B := 2, content := true }
      { A := 1, B := 2, content := true } rfl rfl rfl⟩

end MemSafe
